import Mathlib

set_option maxRecDepth 100000

/-!
Verification of the File-System repository (block store + namespace manager).

This file gives a shallow embedding of the C++ core:
* the block store (class DiskManager with its Bitmap, src/unnamed/part_001),
* the namespace manager (class FileManager; the authoritative variant with
  moveFile / moveDirectory / initializeFileSystem lives in src/test_cli.cpp,
  and src/file_manager.cpp contains an identical copy of the shared methods).

Modelling conventions:
* paths and file payloads are lists (FPath = List Char, Data = List Nat with
  0 standing for the NUL byte);
* the state FS carries the block count, the bitmap (true = free, exactly as
  std::vector of bool in class Bitmap), the disk image as a function from
  block index and offset to a byte, and the file table as an association
  list of FileEntry keyed by FileEntry.name (std::unordered_map keys are
  unique; iteration order of the model is list order);
* C++ exceptions become an explicit error component: a mutating operation
  returns FS × Except Err α, and the returned FS keeps whatever mutations
  happened before the throw, exactly as the C++ state does when an
  exception propagates; const methods are pure functions;
* the mutually recursive operations (ensureParentDirectories with
  createDirectory, deleteDirectory, moveDirectory) take a fuel parameter
  that strictly decreases on every call; for every concrete execution a
  large enough fuel reproduces the C++ behaviour, and running out of fuel
  is a distinguished error that the source cannot produce.
-/

/-- Block size constant BLOCK_SIZE = 4096 from disk_manager.h. -/
def BLOCK_SIZE : Nat := 4096

/-- Capacity constant MAX_BLOCKS = 256 from disk_manager.h (used by the
FileManager::writeFile maximum-size check). -/
def MAX_BLOCKS : Nat := 256

/-- Paths are character lists (std::string used as a path). -/
abbrev FPath := List Char

/-- File payloads and block contents are byte lists (std::string used as a
byte buffer; 0 is the NUL byte). -/
abbrev Data := List Nat

/-- Error kinds corresponding to the exceptions thrown by the source.
noFuel and ub are model artifacts: noFuel marks exhausted recursion fuel
and ub marks an execution on which the C++ source has undefined behaviour
(an out-of-bounds std::vector read in ensureParentDirectories when the
token list is empty). -/
inductive Err where
  | outOfRange
  | payloadTooLarge
  | blockFree
  | blockAlreadyFree
  | capacityExhausted
  | alreadyExists
  | notFound
  | notAFile
  | notADirectory
  | directoryNotEmpty
  | pathConflict
  | invalidName
  | fileTooLarge
  | samePath
  | intoItself
  | parentMissing
  | noFuel
  | ub
  deriving DecidableEq, Repr

/-- FileType from file_manager.h. -/
inductive FileType where
  | File
  | Directory
  deriving DecidableEq, Repr

/-- FileEntry from file_manager.h: path (stored in name, also the table
key), kind, logical size, ordered block list. -/
structure FileEntry where
  name : FPath
  type : FileType
  size : Nat
  blockIndices : List Nat
  deriving DecidableEq, Repr

/-- Combined state of one DiskManager plus the FileManager built on it.
bitmap i = true means block i is free (Bitmap is constructed all-free).
disk b o is byte o of block b of the backing image (fresh images are
zero-filled). Only indices below numBlocks are meaningful. -/
structure FS where
  numBlocks : Nat
  bitmap : Nat → Bool
  disk : Nat → Nat → Nat
  table : List FileEntry

/-- Freshly constructed manager pair: all blocks free, zero-filled image,
empty file table. -/
def FS.new (n : Nat) : FS :=
  { numBlocks := n, bitmap := fun _ => true, disk := fun _ _ => 0, table := [] }

/-- Sequencing of two fallible stateful steps; an error short-circuits and
keeps the state at the moment of the throw (C++ exception propagation). -/
def bindE {α β : Type} (r : FS × Except Err α) (k : α → FS → FS × Except Err β) :
    FS × Except Err β :=
  match r with
  | (s, Except.ok a) => k a s
  | (s, Except.error e) => (s, Except.error e)

theorem bindE_ok {α β : Type} (s : FS) (a : α) (k : α → FS → FS × Except Err β) :
    bindE (s, Except.ok a) k = k a s := rfl

theorem bindE_error {α β : Type} (s : FS) (e : Err) (k : α → FS → FS × Except Err β) :
    bindE (s, Except.error e) k = (s, Except.error e) := rfl

/-! ## Bitmap and DiskManager (src/unnamed/part_001) -/

/-- Bitmap::setOccupied on the bitmap component (bounds already checked by
every caller in the model, mirroring the in-range uses in the source). -/
def setOccupiedFS (s : FS) (i : Nat) : FS :=
  { s with bitmap := fun j => if j = i then false else s.bitmap j }

/-- Bitmap::setFree on the bitmap component. -/
def setFreeFS (s : FS) (i : Nat) : FS :=
  { s with bitmap := fun j => if j = i then true else s.bitmap j }

/-- Store a payload into block i of the image, zero-padded to BLOCK_SIZE
(DiskManager::writeBlock pads with NUL bytes and rewrites the whole
block). -/
def storeBlockFS (s : FS) (i : Nat) (d : Data) : FS :=
  { s with disk := fun b => if b = i then (fun o => d.getD o 0) else s.disk b }

/-- DiskManager::allocateBlock: first-fit scan of the bitmap from index 0,
marks the found block occupied; CapacityExhausted when no block is free. -/
def allocateBlock (s : FS) : FS × Except Err Nat :=
  match (List.range s.numBlocks).find? (fun i => s.bitmap i) with
  | some i => (setOccupiedFS s i, Except.ok i)
  | none => (s, Except.error Err.capacityExhausted)

/-- DiskManager::writeBlock: size check, range check, then write the padded
payload and mark the block occupied. -/
def writeBlock (i : Nat) (d : Data) (s : FS) : FS × Except Err Unit :=
  if BLOCK_SIZE < d.length then (s, Except.error Err.payloadTooLarge)
  else if s.numBlocks ≤ i then (s, Except.error Err.outOfRange)
  else (setOccupiedFS (storeBlockFS s i d) i, Except.ok ())

/-- Bytes of block i as stored in the image (the BLOCK_SIZE bytes that
DiskManager::readBlock reads before trimming). -/
def blockBytes (s : FS) (i : Nat) : Data :=
  (List.range BLOCK_SIZE).map (s.disk i)

/-- Trailing-NUL trim performed by DiskManager::readBlock
(find_last_not_of folowed by resize). -/
def rstrip (l : Data) : Data :=
  (l.reverse.dropWhile (fun c => c == 0)).reverse

/-- DiskManager::readBlock (a const method, hence a pure function): range
check, free check, then the stored bytes with trailing NULs trimmed. -/
def readBlock (s : FS) (i : Nat) : Except Err Data :=
  if s.numBlocks ≤ i then Except.error Err.outOfRange
  else if s.bitmap i then Except.error Err.blockFree
  else Except.ok (rstrip (blockBytes s i))

/-- DiskManager::deleteBlock: range check, already-free check, then zero the
block content and mark it free. -/
def deleteBlock (i : Nat) (s : FS) : FS × Except Err Unit :=
  if s.numBlocks ≤ i then (s, Except.error Err.outOfRange)
  else if s.bitmap i then (s, Except.error Err.blockAlreadyFree)
  else (setFreeFS (storeBlockFS s i []) i, Except.ok ())

/-- DiskManager::setBlockFree: marks the block free without touching the
image content (the bounds check is the one inside Bitmap::setFree). -/
def setBlockFree (i : Nat) (s : FS) : FS × Except Err Unit :=
  if s.numBlocks ≤ i then (s, Except.error Err.outOfRange)
  else (setFreeFS s i, Except.ok ())

/-! ## Path handling (FileManager utility methods) -/

/-- Character class of FileManager::isValidName's regex: letters, digits,
underscore, dot, slash, dash. -/
def validChar (c : Char) : Bool :=
  c.isAlpha || c.isDigit || c == '_' || c == '.' || c == '/' || c == '-'

/-- FileManager::isValidName: nonempty and all characters in the class. -/
def isValidName (p : FPath) : Bool :=
  !p.isEmpty && p.all validChar

/-- Accumulating splitter behind tokenizePath: getline on the separator,
empty segments discarded. cur holds the current segment reversed. -/
def tokenizeAux : List Char → List Char → List FPath
  | [], cur => if cur.isEmpty then [] else [cur.reverse]
  | c :: rest, cur =>
    if c = '/' then
      if cur.isEmpty then tokenizeAux rest [] else cur.reverse :: tokenizeAux rest []
    else tokenizeAux rest (c :: cur)

/-- FileManager::tokenizePath: split on the separator, dropping empty
tokens. -/
def tokenizePath (p : FPath) : List FPath :=
  tokenizeAux p []

/-- One step of the resolution loop in FileManager::resolvePath:
a dot-dot pops when the stack is nonempty, a dot or an unpoppable dot-dot
is skipped, anything else is pushed. -/
def resolveStep (acc : List FPath) (t : FPath) : List FPath :=
  if t = ['.', '.'] then (if acc.isEmpty then acc else acc.dropLast)
  else if t = ['.'] then acc
  else acc ++ [t]

/-- Token stack produced by the loop in FileManager::resolvePath. -/
def resolveStack (toks : List FPath) : List FPath :=
  toks.foldl resolveStep []

/-- Join of the resolved tokens exactly as the source builds it:
resolvedPath starts as the separator and every part appends part + "/". -/
def joinParts (parts : List FPath) : FPath :=
  (parts.map (fun t => t ++ ['/'])).flatten

/-- FileManager::resolvePath. The literal root input short-circuits;
otherwise the rejoined string has its final character removed (substr of
length - 1), which sends every other root-resolving input to the empty
string. Pure and total over arbitrary inputs, as in the source. -/
def resolvePath (p : FPath) : FPath :=
  if p = ['/'] then ['/']
  else
    let rp : FPath := '/' :: joinParts (resolveStack (tokenizePath p))
    if rp.isEmpty then ['/'] else rp.dropLast

/-! ## FileTable (file_manager.h / src/test_cli.cpp) -/

/-- FileTable::getEntry: unordered_map lookup by the path key (keys and
FileEntry.name always coincide because addEntry keys by entry.name). -/
def getEntry (t : List FileEntry) (name : FPath) : Option FileEntry :=
  t.find? (fun e => e.name == name)

/-- FileTable::addEntry: fails when the key is present, otherwise inserts
(the model appends; iteration order of the model is insertion order). -/
def addEntry (t : List FileEntry) (e : FileEntry) : Except Err (List FileEntry) :=
  if (getEntry t e.name).isSome then Except.error Err.alreadyExists
  else Except.ok (t ++ [e])

/-- FileTable::removeEntry: erase by key (at most one entry has the key). -/
def removeEntry (t : List FileEntry) (name : FPath) : List FileEntry :=
  t.eraseP (fun e => e.name == name)

/-- FileManager::findEntry: resolve, then look up the canonical path. It
only reads the file table, so the model takes the table directly. -/
def findEntry (t : List FileEntry) (p : FPath) : Option FileEntry :=
  getEntry t (resolvePath p)

/-- FileManager::getMetadata is findEntry. -/
def getMetadata (t : List FileEntry) (p : FPath) : Option FileEntry :=
  findEntry t p

/-! ## FileManager operations (src/test_cli.cpp, src/file_manager.cpp) -/

/-- Root directory entry ("/" with kind Directory, size 0, no blocks). -/
def rootEntry : FileEntry :=
  { name := ['/'], type := FileType.Directory, size := 0, blockIndices := [] }

/-- FileManager::initializeFileSystem: insert the root entry when no entry
at "/" exists (the addEntry cannot fail there, so no error results). -/
def initFileSystem (s : FS) : FS :=
  match findEntry s.table ['/'] with
  | none => { s with table := s.table ++ [rootEntry] }
  | some _ => s

mutual

/-- Loop body of FileManager::ensureParentDirectories: walk the ancestor
tokens, creating each missing ancestor as a directory and failing with
PathConflict when an ancestor exists but is not a directory. cur is the
C++ currentPath accumulator (ending in the separator). Fuel decreases on
every call; the source recurses through createDirectory. -/
def epLoop : Nat → List FPath → FPath → FS → FS × Except Err Unit
  | 0, _, _, s => (s, Except.error Err.noFuel)
  | fuel + 1, ts, cur, s =>
    match ts with
    | [] => (s, Except.ok ())
    | t :: rest =>
      let cur2 := cur ++ t
      match findEntry s.table cur2 with
      | none =>
        bindE (createDirectory fuel cur2 s) fun _ s => epLoop fuel rest (cur2 ++ ['/']) s
      | some e =>
        if e.type = FileType.Directory then epLoop fuel rest (cur2 ++ ['/']) s
        else (s, Except.error Err.pathConflict)

/-- FileManager::ensureParentDirectories. On an empty token list the C++
loop bound tokens.size() - 1 underflows in size_t arithmetic and the body
reads tokens out of bounds: undefined behaviour, modelled as the ub
error. Otherwise all tokens but the last are processed. -/
def ensureParentDirectories : Nat → FPath → FS → FS × Except Err Unit
  | 0, _, s => (s, Except.error Err.noFuel)
  | fuel + 1, path, s =>
    let tokens := tokenizePath path
    if tokens.isEmpty then (s, Except.error Err.ub)
    else epLoop fuel tokens.dropLast ['/'] s

/-- FileManager::createDirectory: name validation, resolution, parent
creation, duplicate check, then insertion of a Directory entry with no
blocks. -/
def createDirectory : Nat → FPath → FS → FS × Except Err Unit
  | 0, _, s => (s, Except.error Err.noFuel)
  | fuel + 1, path, s =>
    if !isValidName path then (s, Except.error Err.invalidName)
    else
      let resolvedPath := resolvePath path
      bindE (ensureParentDirectories fuel resolvedPath s) fun _ s =>
        if (findEntry s.table resolvedPath).isSome then (s, Except.error Err.alreadyExists)
        else
          match addEntry s.table
              { name := resolvedPath, type := FileType.Directory, size := 0,
                blockIndices := [] } with
          | Except.ok t => ({ s with table := t }, Except.ok ())
          | Except.error e => (s, Except.error e)

end

/-- Allocation loop of FileManager::createFile: numBlocks calls to
allocateBlock, collecting the indices in order. A failure propagates
immediately; the source has no rollback here, so blocks allocated by
earlier iterations stay occupied. -/
def allocN : Nat → FS → FS × Except Err (List Nat)
  | 0, s => (s, Except.ok [])
  | n + 1, s =>
    bindE (allocateBlock s) fun b s =>
      bindE (allocN n s) fun bs s => (s, Except.ok (b :: bs))

/-- FileManager::createFile: validation, resolution, parent creation,
duplicate check, allocation of ceil(size / BLOCK_SIZE) blocks, insertion
of the File entry. -/
def createFile (fuel : Nat) (path : FPath) (size : Nat) (s : FS) : FS × Except Err Unit :=
  if !isValidName path then (s, Except.error Err.invalidName)
  else
    let resolvedPath := resolvePath path
    bindE (ensureParentDirectories fuel resolvedPath s) fun _ s =>
      if (findEntry s.table resolvedPath).isSome then (s, Except.error Err.alreadyExists)
      else
        let numBlocksNeeded := (size + BLOCK_SIZE - 1) / BLOCK_SIZE
        bindE (allocN numBlocksNeeded s) fun blocks s =>
          match addEntry s.table
              { name := resolvedPath, type := FileType.File, size := size,
                blockIndices := blocks } with
          | Except.ok t => ({ s with table := t }, Except.ok ())
          | Except.error e => (s, Except.error e)

/-- Loop of FileManager::deleteFile freeing every block of the entry via
DiskManager::deleteBlock. -/
def deleteBlocksLoop : List Nat → FS → FS × Except Err Unit
  | [], s => (s, Except.ok ())
  | i :: rest, s => bindE (deleteBlock i s) fun _ s => deleteBlocksLoop rest s

/-- FileManager::deleteFile: existence and kind checks, free all blocks,
then remove the table entry under the raw (unresolved) argument, exactly
as the source passes path rather than the resolved path to removeEntry. -/
def deleteFile (path : FPath) (s : FS) : FS × Except Err Unit :=
  match findEntry s.table path with
  | none => (s, Except.error Err.notFound)
  | some entry =>
    if entry.type ≠ FileType.File then (s, Except.error Err.notAFile)
    else
      bindE (deleteBlocksLoop entry.blockIndices s) fun _ s =>
        ({ s with table := removeEntry s.table path }, Except.ok ())

mutual

/-- Loop of FileMaager::deleteDirectory over a snapshot of the table. The
match is a plain string-prefix test of the raw path argument against each
key (name.find(path) == 0 with name different from path): a sibling such
as "/foo2" matches the prefix "/foo". With recursive false the first
match throws DirectoryNotEmpty before any mutation. The C++ version
iterates the live unordered_map while erasing from it (iterator
invalidation: undefined behaviour in the recursive case); the model
iterates the snapshot taken at entry. -/
def ddLoop : Nat → FPath → Bool → List FileEntry → FS → FS × Except Err Unit
  | 0, _, _, _, s => (s, Except.error Err.noFuel)
  | fuel + 1, path, recursive, entries, s =>
    match entries with
    | [] => (s, Except.ok ())
    | e :: rest =>
      if path.isPrefixOf e.name && e.name != path then
        if !recursive then (s, Except.error Err.directoryNotEmpty)
        else if e.type = FileType.File then
          bindE (deleteFile e.name s) fun _ s => ddLoop fuel path recursive rest s
        else
          bindE (deleteDirectory fuel e.name true s) fun _ s =>
            ddLoop fuel path recursive rest s
      else ddLoop fuel path recursive rest s

/-- FileManager::deleteDirectory: existence and kind checks, the
descendant loop, then removal of the directory's own entry under the raw
argument. There is no special treatment of the root path. -/
def deleteDirectory : Nat → FPath → Bool → FS → FS × Except Err Unit
  | 0, _, _, s => (s, Except.error Err.noFuel)
  | fuel + 1, path, recursive, s =>
    match findEntry s.table path with
    | none => (s, Except.error Err.notFound)
    | some entry =>
      if entry.type ≠ FileType.Directory then (s, Except.error Err.notADirectory)
      else
        bindE (ddLoop fuel path recursive s.table s) fun _ s =>
          ({ s with table := removeEntry s.table path }, Except.ok ())

end

/-- FileManager::listDirectory (const, pure in the table). The existence
and kind checks go through findEntry (resolved), but basePath is built
from the raw argument: basePath is the argument itself when it already
ends in the separator and the argument plus the separator otherwise. For
each entry whose key has basePath as a string prefix and differs from the
raw argument, the first component of the remainder is collected without
duplicates. path.back() on the empty argument is undefined behaviour in
C++; the model takes the append branch there. -/
def listDirStep (basePath path : FPath) (contents : List FPath) (e : FileEntry) :
    List FPath :=
  if basePath.isPrefixOf e.name && e.name != path then
    let relativePath := e.name.drop basePath.length
    let relativePath := relativePath.takeWhile (fun c => !(c == '/'))
    if !relativePath.isEmpty && !(contents.contains relativePath) then
      contents ++ [relativePath]
    else contents
  else contents

def listDirectory (t : List FileEntry) (path : FPath) : Except Err (List FPath) :=
  match findEntry t path with
  | none => Except.error Err.notFound
  | some entry =>
    if entry.type ≠ FileType.Directory then Except.error Err.notADirectory
    else
      let basePath := if path.getLast? = some '/' then path else path ++ ['/']
      Except.ok (t.foldl (listDirStep basePath path) [])

/-- Resize of a byte string to an exact length: truncation or NUL padding
(std::string::resize as used by FileManager::readFile). -/
def resizeData (d : Data) (n : Nat) : Data :=
  d.take n ++ List.replicate (n - d.length) 0

/-- Concatenation loop of FileManager::readFile over the entry's block
chain. -/
def readFileBlocks (s : FS) : List Nat → Except Err Data
  | [] => Except.ok []
  | i :: rest =>
    match readBlock s i with
    | Except.error e => Except.error e
    | Except.ok d =>
      match readFileBlocks s rest with
      | Except.error e => Except.error e
      | Except.ok ds => Except.ok (d ++ ds)

/-- FileManager::readFile (const, pure): existence and kind checks, block
concatenation, then resize to the recorded logical size. -/
def readFile (s : FS) (path : FPath) : Except Err Data :=
  match findEntry s.table path with
  | none => Except.error Err.notFound
  | some entry =>
    if entry.type ≠ FileType.File then Except.error Err.notAFile
    else
      match readFileBlocks s entry.blockIndices with
      | Except.error e => Except.error e
      | Except.ok data => Except.ok (resizeData data entry.size)

/-- Allocation loop of FileManager::writeFile over the chunk indices:
index i reuses the entry's existing block i when it has one and allocates
a fresh block otherwise. The accumulated vector newBlocks is returned
even when allocation fails so that the catch block can free the freshly
allocated tail, exactly as the C++ newBlocks lives outside the try. -/
def wfAlloc (old : List Nat) : List Nat → List Nat → FS → FS × (List Nat × Option Err)
  | [], acc, s => (s, (acc, none))
  | i :: rest, acc, s =>
    if i < old.length then wfAlloc old rest (acc ++ [old.getD i 0]) s
    else
      match allocateBlock s with
      | (s, Except.ok b) => wfAlloc old rest (acc ++ [b]) s
      | (s, Except.error e) => (s, (acc, some e))

/-- Write loop of FileManager::writeFile: chunk i of the new content
(substr at i * BLOCK_SIZE of length BLOCK_SIZE) goes to block i of the
assembled block list. -/
def wfWrite (fileData : Data) : List (Nat × Nat) → FS → FS × Except Err Unit
  | [], s => (s, Except.ok ())
  | (idx, blockIndex) :: rest, s =>
    bindE (writeBlock blockIndex ((fileData.drop (idx * BLOCK_SIZE)).take BLOCK_SIZE) s)
      fun _ s => wfWrite fileData rest s

/-- Loop freeing a list of blocks through DiskManager::setBlockFree (the
shrink loop and the rollback loop of FileManager::writeFile). -/
def wfFree : List Nat → FS → FS × Except Err Unit
  | [], s => (s, Except.ok ())
  | i :: rest, s => bindE (setBlockFree i s) fun _ s => wfFree rest s

/-- Rollback of FileManager::writeFile's catch block: free every newly
allocated block (positions from the old block count onward in newBlocks)
and rethrow the original error; an error thrown by the rollback itself
replaces the original, as a throw inside a catch would. -/
def wfRollback (oldLen : Nat) (newBlocks : List Nat) (e : Err) (s : FS) :
    FS × Except Err Unit :=
  match wfFree (newBlocks.drop oldLen) s with
  | (s, Except.ok _) => (s, Except.error e)
  | (s, Except.error e2) => (s, Except.error e2)

/-- FileManager::writeFile: existence and kind checks, read of the old
content when appending, maximum-size check against MAX_BLOCKS blocks,
block reuse plus allocation, chunked writes, freeing of surplus old
blocks, and replacement of the table entry with the new size and block
list; any failure after allocation began triggers the rollback. -/
def writeFile (path : FPath) (data : Data) (append : Bool) (s : FS) :
    FS × Except Err Unit :=
  match findEntry s.table path with
  | none => (s, Except.error Err.notFound)
  | some entry =>
    if entry.type ≠ FileType.File then (s, Except.error Err.notAFile)
    else
      match (if append then readFile s path else Except.ok []) with
      | Except.error e => (s, Except.error e)
      | Except.ok existing =>
        let fileData := existing ++ data
        if MAX_BLOCKS * BLOCK_SIZE < fileData.length then (s, Except.error Err.fileTooLarge)
        else
          let newSize := fileData.length
          let requiredBlocks := (newSize + BLOCK_SIZE - 1) / BLOCK_SIZE
          match wfAlloc entry.blockIndices (List.range requiredBlocks) [] s with
          | (s1, (newBlocks, some e)) =>
            wfRollback entry.blockIndices.length newBlocks e s1
          | (s1, (newBlocks, none)) =>
            match wfWrite fileData newBlocks.enum s1 with
            | (s2, Except.error e) => wfRollback entry.blockIndices.length newBlocks e s2
            | (s2, Except.ok _) =>
              match wfFree (entry.blockIndices.drop requiredBlocks) s2 with
              | (s3, Except.error e) => wfRollback entry.blockIndices.length newBlocks e s3
              | (s3, Except.ok _) =>
                let updatedEntry := { entry with size := newSize, blockIndices := newBlocks }
                let t1 := removeEntry s3.table updatedEntry.name
                match addEntry t1 updatedEntry with
                | Except.error e =>
                  wfRollback entry.blockIndices.length newBlocks e { s3 with table := t1 }
                | Except.ok t2 => ({ s3 with table := t2 }, Except.ok ())

/-- Prefix of a path before its last separator: substr(0, find_last_of of
the separator); the whole string when it has no separator (npos). -/
def beforeLastSlash (d : FPath) : FPath :=
  if d.contains '/' then ((d.reverse.dropWhile (fun c => !(c == '/'))).drop 1).reverse
  else d

/-- FileManager::moveFile (src/test_cli.cpp): same-path check, source
existence and kind checks, parent-directory existence check on the
resolved destination, then copy-then-delete: read the source content,
create the destination sized like the source, overwrite it with the
content, and finally remove the source key from the table. The source's
blocks are not freed by this removal. -/
def moveFile (fuel : Nat) (sourcePath destinationPath : FPath) (s : FS) :
    FS × Except Err Unit :=
  let srcResolved := resolvePath sourcePath
  let destResolved := resolvePath destinationPath
  if srcResolved = destResolved then (s, Except.error Err.samePath)
  else
    match findEntry s.table srcResolved with
    | none => (s, Except.error Err.notFound)
    | some sourceEntry =>
      if sourceEntry.type ≠ FileType.File then (s, Except.error Err.notAFile)
      else
        let parentPath := resolvePath (beforeLastSlash destResolved)
        if (findEntry s.table parentPath).isNone then (s, Except.error Err.parentMissing)
        else
          match readFile s srcResolved with
          | Except.error e => (s, Except.error e)
          | Except.ok fileData =>
            bindE (createFile fuel destResolved sourceEntry.size s) fun _ s =>
              bindE (writeFile destResolved fileData false s) fun _ s =>
                ({ s with table := removeEntry s.table srcResolved }, Except.ok ())

mutual

/-- Loop of FileManager::moveDirectory over the listed children: each item
is re-rooted from the source to the destination, files through moveFile
and subdirectories through recursive moveDirectory; missing items are
skipped. -/
def mdLoop : Nat → FPath → FPath → List FPath → FS → FS × Except Err Unit
  | 0, _, _, _, s => (s, Except.error Err.noFuel)
  | fuel + 1, srcResolved, destResolved, items, s =>
    match items with
    | [] => (s, Except.ok ())
    | item :: rest =>
      let srcItemPath := srcResolved ++ ['/'] ++ item
      let destItemPath := destResolved ++ ['/'] ++ item
      match findEntry s.table srcItemPath with
      | none => mdLoop fuel srcResolved destResolved rest s
      | some e =>
        if e.type = FileType.File then
          bindE (moveFile fuel srcItemPath destItemPath s) fun _ s =>
            mdLoop fuel srcResolved destResolved rest s
        else
          bindE (moveDirectory fuel srcItemPath destItemPath s) fun _ s =>
            mdLoop fuel srcResolved destResolved rest s

/-- FileManager::moveDirectory (src/test_cli.cpp): same-path check, a raw
string-prefix check of the destination argument against the source
argument, source existence and kind checks; then the destination
directory entry is inserted, every listed child is moved, and the final
step calls deleteFile on the source directory itself. -/
def moveDirectory : Nat → FPath → FPath → FS → FS × Except Err Unit
  | 0, _, _, s => (s, Except.error Err.noFuel)
  | fuel + 1, sourcePath, destinationPath, s =>
    let srcResolved := resolvePath sourcePath
    let destResolved := resolvePath destinationPath
    if srcResolved = destResolved then (s, Except.error Err.samePath)
    else if sourcePath.isPrefixOf destinationPath then (s, Except.error Err.intoItself)
    else
      match findEntry s.table srcResolved with
      | none => (s, Except.error Err.notFound)
      | some sourceEntry =>
        if sourceEntry.type ≠ FileType.Directory then (s, Except.error Err.notADirectory)
        else
          match addEntry s.table { sourceEntry with name := destResolved } with
          | Except.error e => (s, Except.error e)
          | Except.ok t =>
            let s := { s with table := t }
            match listDirectory s.table srcResolved with
            | Except.error e => (s, Except.error e)
            | Except.ok contents =>
              bindE (mdLoop fuel srcResolved destResolved contents s) fun _ s =>
                deleteFile srcResolved s

end

/-! ## Persistence (DiskManager::save/load, FileManager::save/load) -/

/-- Structural form of the DiskManager section of the snapshot file:
bitmap length and bits (true = free, exactly the bool the source writes
as a byte), then the (index, trimmed content) pairs for every occupied
block in ascending index order. The all-ones end marker of the binary
format needs no counterpart for a structural list. -/
structure DiskSnap where
  bitmapSize : Nat
  bits : List Bool
  blocks : List (Nat × Data)
  deriving DecidableEq, Repr

/-- DiskManager::save: write the bitmap, then for every occupied block its
index and its readBlock content (trailing NULs trimmed). -/
def diskSave (s : FS) : DiskSnap :=
  { bitmapSize := s.numBlocks
    bits := (List.range s.numBlocks).map s.bitmap
    blocks := ((List.range s.numBlocks).filter (fun i => !s.bitmap i)).map
      (fun i => (i, rstrip (blockBytes s i))) }

/-- Block-replay loop of DiskManager::load: validate the index and the
length, then writeBlock the stored bytes (which re-pads with NULs and
marks the block occupied). -/
def diskLoadBlocks : List (Nat × Data) → FS → FS × Except Err Unit
  | [], s => (s, Except.ok ())
  | (blockIndex, blockData) :: rest, s =>
    if s.numBlocks ≤ blockIndex then (s, Except.error Err.outOfRange)
    else if BLOCK_SIZE < blockData.length then (s, Except.error Err.payloadTooLarge)
    else bindE (writeBlock blockIndex blockData s) fun _ s => diskLoadBlocks rest s

/-- DiskManager::load: rebuild the bitmap from the stored bits (a fresh
all-free Bitmap with setOccupied applied wherever the stored bit says
occupied), then replay the stored blocks. The early-return EOF branches
of the source cannot trigger on a snapshot produced by save. -/
def diskLoad (snap : DiskSnap) (s : FS) : FS × Except Err Unit :=
  diskLoadBlocks snap.blocks { s with bitmap := fun i => snap.bits.getD i true }

/-- Structural form of the full metadata snapshot written by
FileManager::save: the table entries (count, path, kind, size, block
list each), then the DiskManager section. -/
structure Snapshot where
  entries : List FileEntry
  disk : DiskSnap
  deriving DecidableEq, Repr

/-- FileManager::save: the table entries in iteration order followed by
the DiskManager snapshot. -/
def fmSave (s : FS) : Snapshot :=
  { entries := s.table, disk := diskSave s }

/-- Entry-replay loop of FileManager::load: addEntry for every stored
entry (throwing on a duplicate key). -/
def loadEntries : List FileEntry → FS → FS × Except Err Unit
  | [], s => (s, Except.ok ())
  | e :: rest, s =>
    match addEntry s.table e with
    | Except.error err => (s, Except.error err)
    | Except.ok t => loadEntries rest { s with table := t }

/-- Root repair step of FileManager::load: when no entry at "/" exists or
the existing one is not a directory, remove it (if present) and insert a
fresh root directory entry. -/
def rootRepair (s : FS) : FS :=
  match getEntry s.table ['/'] with
  | some r =>
    if r.type = FileType.Directory then s
    else { s with table := removeEntry s.table ['/'] ++ [rootEntry] }
  | none => { s with table := s.table ++ [rootEntry] }

/-- FileManager::load: replay the entries, repair the root, then load the
DiskManager state. -/
def fmLoad (snap : Snapshot) (s : FS) : FS × Except Err Unit :=
  bindE (loadEntries snap.entries s) fun _ s => diskLoad snap.disk (rootRepair s)

/-- State obtained by saving s and loading the snapshot into a freshly
constructed manager of the same capacity (a new process run on the same
configuration). -/
def loadAfterSave (s : FS) : FS :=
  (fmLoad (fmSave s) (FS.new s.numBlocks)).1

/-! ## Reachable states -/

/-- States reachable from a freshly constructed manager through the public
mutating FileManager operations, with arbitrary arguments and fuel. The
state component of an operation's result is reachable whether the
operation succeeded or threw, matching what a caller observes after
catching the exception. -/
inductive Reachable : FS → Prop where
  | base (n : Nat) : Reachable (FS.new n)
  | init {s : FS} : Reachable s → Reachable (initFileSystem s)
  | createFileStep {s : FS} (fuel : Nat) (p : FPath) (size : Nat) :
      Reachable s → Reachable (createFile fuel p size s).1
  | createDirectoryStep {s : FS} (fuel : Nat) (p : FPath) :
      Reachable s → Reachable (createDirectory fuel p s).1
  | deleteFileStep {s : FS} (p : FPath) :
      Reachable s → Reachable (deleteFile p s).1
  | deleteDirectoryStep {s : FS} (fuel : Nat) (p : FPath) (recursive : Bool) :
      Reachable s → Reachable (deleteDirectory fuel p recursive s).1
  | writeFileStep {s : FS} (p : FPath) (data : Data) (append : Bool) :
      Reachable s → Reachable (writeFile p data append s).1
  | moveFileStep {s : FS} (fuel : Nat) (src dst : FPath) :
      Reachable s → Reachable (moveFile fuel src dst s).1
  | moveDirectoryStep {s : FS} (fuel : Nat) (src dst : FPath) :
      Reachable s → Reachable (moveDirectory fuel src dst s).1

/-- Decidable equality for Except results, used to evaluate the model on
concrete inputs. -/
instance {e a : Type} [DecidableEq e] [DecidableEq a] :
    DecidableEq (Except e a) := fun x y =>
  match x, y with
  | Except.error e1, Except.error e2 =>
    if h : e1 = e2 then Decidable.isTrue (by rw [h])
    else Decidable.isFalse (fun hh => h (Except.error.inj hh))
  | Except.ok a1, Except.ok a2 =>
    if h : a1 = a2 then Decidable.isTrue (by rw [h])
    else Decidable.isFalse (fun hh => h (Except.ok.inj hh))
  | Except.error _, Except.ok _ => Decidable.isFalse (fun hh => Except.noConfusion hh)
  | Except.ok _, Except.error _ => Decidable.isFalse (fun hh => Except.noConfusion hh)

/-! ## Basic lemmas about the state helpers -/

theorem setOccupiedFS_numBlocks (s : FS) (i : Nat) :
    (setOccupiedFS s i).numBlocks = s.numBlocks := rfl

theorem setOccupiedFS_table (s : FS) (i : Nat) :
    (setOccupiedFS s i).table = s.table := rfl

theorem setOccupiedFS_bitmap (s : FS) (i j : Nat) :
    (setOccupiedFS s i).bitmap j = if j = i then false else s.bitmap j := rfl

theorem setFreeFS_numBlocks (s : FS) (i : Nat) :
    (setFreeFS s i).numBlocks = s.numBlocks := rfl

theorem setFreeFS_table (s : FS) (i : Nat) :
    (setFreeFS s i).table = s.table := rfl

theorem storeBlockFS_numBlocks (s : FS) (i : Nat) (d : Data) :
    (storeBlockFS s i d).numBlocks = s.numBlocks := rfl

theorem storeBlockFS_table (s : FS) (i : Nat) (d : Data) :
    (storeBlockFS s i d).table = s.table := rfl

theorem storeBlockFS_bitmap (s : FS) (i : Nat) (d : Data) :
    (storeBlockFS s i d).bitmap = s.bitmap := rfl

/-! ## Lemmas about the trailing-NUL trim -/

theorem dropWhile_replicate_zero_append (k : Nat) (x : Data) :
    (List.replicate k 0 ++ x).dropWhile (fun c => c == 0) = x.dropWhile (fun c => c == 0) := by
  induction k with
  | zero => simp
  | succ k ih => simp [List.replicate_succ, List.dropWhile_cons, ih]

theorem rstrip_append_replicate_zero (l : Data) (k : Nat) :
    rstrip (l ++ List.replicate k 0) = rstrip l := by
  simp [rstrip, List.reverse_append, List.reverse_replicate,
    dropWhile_replicate_zero_append]

theorem rstrip_of_getLast_ne_zero (l : Data) (h : l.getLast? ≠ some 0) :
    rstrip l = l := by
  unfold rstrip
  match hrev : l.reverse with
  | [] =>
    have : l = [] := by simpa using congrArg List.reverse hrev
    simp [this]
  | a :: t =>
    have ha : l.getLast? = some a := by
      rw [← List.head?_reverse, hrev]; rfl
    have : ¬(a == 0) = true := by
      simp only [beq_iff_eq]
      intro h0
      exact h (by rw [ha, h0])
    rw [List.dropWhile_cons, if_neg this, ← hrev, List.reverse_reverse]

theorem head?_dropWhile_ne (p : Nat → Bool) (l : Data) :
    ∀ a, (l.dropWhile p).head? = some a → p a = false := by
  induction l with
  | nil => intro a h; simp at h
  | cons x t ih =>
    intro a h
    rw [List.dropWhile_cons] at h
    by_cases hx : p x = true
    · rw [if_pos hx] at h; exact ih a h
    · rw [if_neg hx] at h
      simp only [List.head?_cons, Option.some.injEq] at h
      subst h
      simpa using hx

theorem rstrip_getLast_ne_zero (l : Data) : (rstrip l).getLast? ≠ some 0 := by
  unfold rstrip
  intro h
  rw [List.getLast?_reverse] at h
  have := head?_dropWhile_ne (fun c => c == 0) l.reverse 0 h
  simp at this

theorem rstrip_idem (l : Data) : rstrip (rstrip l) = rstrip l :=
  rstrip_of_getLast_ne_zero _ (rstrip_getLast_ne_zero l)

theorem length_dropWhile_le (p : Nat → Bool) (l : Data) :
    (l.dropWhile p).length ≤ l.length := by
  induction l with
  | nil => simp
  | cons a t ih =>
    rw [List.dropWhile_cons]
    by_cases h : p a = true
    · rw [if_pos h]; exact Nat.le_succ_of_le ih
    · rw [if_neg h]

theorem rstrip_length_le (l : Data) : (rstrip l).length ≤ l.length := by
  calc (rstrip l).length = (l.reverse.dropWhile (fun c => c == 0)).length := by
        simp [rstrip]
    _ ≤ l.reverse.length := length_dropWhile_le _ _
    _ = l.length := List.length_reverse _

theorem map_range_getD (l : Data) (n : Nat) (h : l.length ≤ n) :
    (List.range n).map (fun o => l.getD o 0) = l ++ List.replicate (n - l.length) 0 := by
  induction l generalizing n with
  | nil =>
    simp [List.map_const']
  | cons a t ih =>
    match n, h with
    | n + 1, h =>
      rw [List.range_succ_eq_map, List.map_cons, List.map_map]
      have : ((fun o => (a :: t).getD o 0) ∘ Nat.succ) = fun o => t.getD o 0 := by
        funext o; rfl
      rw [this, ih n (by simpa using h)]
      simp [List.getD_cons_zero]

/-- Evaluation of the stored bytes of a freshly written block: the payload
padded with NULs to the full block size. -/
theorem storeBlockFS_disk_self (s : FS) (i : Nat) (d : Data) :
    (storeBlockFS s i d).disk i = fun o => d.getD o 0 := by
  simp [storeBlockFS]

theorem blockBytes_store_self (s : FS) (i : Nat) (d : Data) (h : d.length ≤ BLOCK_SIZE) :
    blockBytes (storeBlockFS s i d) i = d ++ List.replicate (BLOCK_SIZE - d.length) 0 := by
  unfold blockBytes
  rw [storeBlockFS_disk_self]
  exact map_range_getD d BLOCK_SIZE h

/-! ## Claim C8: writeBlock followed by readBlock -/

/-- C8. For every valid block index i and payload d of at most BLOCK_SIZE
bytes whose last byte is not NUL, writeBlock succeeds and the following
readBlock returns exactly d: the block is zero-padded on write and the
trailing NULs are stripped on read, the identity on such payloads. -/
theorem c8_writeBlock_readBlock_roundtrip (s : FS) (i : Nat) (d : Data)
    (hi : i < s.numBlocks) (hlen : d.length ≤ BLOCK_SIZE) (hlast : d.getLast? ≠ some 0) :
    (writeBlock i d s).2 = Except.ok () ∧
      readBlock (writeBlock i d s).1 i = Except.ok d := by
  have hc1 : ¬ BLOCK_SIZE < d.length := Nat.not_lt.mpr hlen
  have hc2 : ¬ s.numBlocks ≤ i := Nat.not_le.mpr hi
  unfold writeBlock
  rw [if_neg hc1, if_neg hc2]
  refine ⟨rfl, ?_⟩
  unfold readBlock
  have hnb : (setOccupiedFS (storeBlockFS s i d) i).numBlocks = s.numBlocks := rfl
  rw [hnb, if_neg hc2]
  have hbm : (setOccupiedFS (storeBlockFS s i d) i).bitmap i = false := by
    simp [setOccupiedFS]
  rw [hbm]
  have hbb : blockBytes (setOccupiedFS (storeBlockFS s i d) i) i
      = blockBytes (storeBlockFS s i d) i := rfl
  simp only [Bool.false_eq_true, if_false, hbb,
    blockBytes_store_self s i d hlen, rstrip_append_replicate_zero,
    rstrip_of_getLast_ne_zero d hlast]

/-- Closed instance of the C8 round trip discharging its hypotheses at a
concrete state and payload. -/
theorem c8_witness :
    (writeBlock 0 [72, 105] (FS.new 4)).2 = Except.ok () ∧
      readBlock (writeBlock 0 [72, 105] (FS.new 4)).1 0 = Except.ok [72, 105] :=
  c8_writeBlock_readBlock_roundtrip (FS.new 4) 0 [72, 105]
    (by decide) (by decide) (by decide)

/-! ## Claim C7: resolvePath canonical form -/

/-- Counterexample to C7 as stated: the input "/a/.." resolves to the
empty string, not to the separator, because the source chops the final
character of the rejoined path "/" built from an empty token stack. The
result neither begins with a separator nor equals the separator. -/
theorem c7_counterexample :
    resolvePath ['/', 'a', '/', '.', '.'] = [] ∧ ([] : FPath) ≠ ['/'] := by
  constructor
  · decide
  · decide

theorem tokenizeAux_tokens (p : List Char) :
    ∀ cur, ('/' ∉ cur) → ∀ t ∈ tokenizeAux p cur, t ≠ [] ∧ '/' ∉ t := by
  induction p with
  | nil =>
    intro cur hcur t ht
    unfold tokenizeAux at ht
    by_cases hc : cur.isEmpty
    · rw [if_pos hc] at ht; simp at ht
    · rw [if_neg hc] at ht
      simp only [List.mem_singleton] at ht
      subst ht
      refine ⟨by simpa [List.isEmpty_iff] using hc, by simpa using hcur⟩
  | cons c rest ih =>
    intro cur hcur t ht
    unfold tokenizeAux at ht
    by_cases hc : c = '/'
    · rw [if_pos hc] at ht
      by_cases he : cur.isEmpty
      · rw [if_pos he] at ht
        exact ih [] (by simp) t ht
      · rw [if_neg he] at ht
        rcases List.mem_cons.mp ht with h | h
        · subst h
          refine ⟨by simpa [List.isEmpty_iff] using he, by simpa using hcur⟩
        · exact ih [] (by simp) t h
    · rw [if_neg hc] at ht
      refine ih (c :: cur) ?_ t ht
      intro hm
      rcases List.mem_cons.mp hm with h | h
      · exact hc h.symm
      · exact hcur h

theorem tokenizePath_tokens (p : FPath) :
    ∀ t ∈ tokenizePath p, t ≠ [] ∧ '/' ∉ t :=
  tokenizeAux_tokens p [] (by simp)

theorem resolveStack_tokens_aux (P : FPath → Prop) (toks : List FPath)
    (htoks : ∀ t ∈ toks, P t) :
    ∀ acc, (∀ t ∈ acc, P t) → ∀ t ∈ toks.foldl resolveStep acc, P t := by
  induction toks with
  | nil => intro acc hacc t ht; exact hacc t ht
  | cons x rest ih =>
    intro acc hacc t ht
    rw [List.foldl_cons] at ht
    refine ih (fun u hu => htoks u (List.mem_cons_of_mem _ hu)) _ ?_ t ht
    intro u hu
    unfold resolveStep at hu
    by_cases h1 : x = ['.', '.']
    · rw [if_pos h1] at hu
      by_cases h2 : acc.isEmpty
      · rw [if_pos h2] at hu; exact hacc u hu
      · rw [if_neg h2] at hu
        exact hacc u (List.dropLast_sublist acc |>.mem hu)
    · rw [if_neg h1] at hu
      by_cases h2 : x = ['.']
      · rw [if_pos h2] at hu; exact hacc u hu
      · rw [if_neg h2] at hu
        rcases List.mem_append.mp hu with h | h
        · exact hacc u h
        · rcases List.mem_singleton.mp h with rfl
          exact htoks u (List.mem_cons_self _ _)

theorem resolveStack_tokens (p : FPath) :
    ∀ t ∈ resolveStack (tokenizePath p), t ≠ [] ∧ '/' ∉ t :=
  resolveStack_tokens_aux _ _ (tokenizePath_tokens p) [] (by simp)

theorem joinParts_nil : joinParts [] = [] := rfl

theorem joinParts_cons (t : FPath) (ts : List FPath) :
    joinParts (t :: ts) = t ++ ['/'] ++ joinParts ts := by
  simp [joinParts]

theorem joinParts_concat (ts : List FPath) (b : FPath) :
    joinParts (ts ++ [b]) = joinParts ts ++ (b ++ ['/']) := by
  simp [joinParts]

/-- Canonical-form characterization of resolvePath, shared by the C7
statement and the invariant development. -/
theorem resolvePath_canonical_spec (p : FPath) :
    (p = ['/'] → resolvePath p = ['/']) ∧
    (p ≠ ['/'] → resolveStack (tokenizePath p) = [] → resolvePath p = []) ∧
    (p ≠ ['/'] → resolveStack (tokenizePath p) ≠ [] →
      (resolvePath p).head? = some '/' ∧
      ((resolvePath p).drop 1).head? ≠ some '/' ∧
      (resolvePath p).getLast? ≠ some '/') := by
  refine ⟨fun h => by rw [resolvePath, if_pos h], fun hne hstack => ?_, fun hne hstack => ?_⟩
  · rw [resolvePath, if_neg hne]
    simp [hstack, joinParts_nil]
  · have hall := resolveStack_tokens p
    rcases List.eq_nil_or_concat (resolveStack (tokenizePath p)) with h | ⟨ts, b, h⟩
    · exact absurd h hstack
    rw [List.concat_eq_append] at h
    rw [h] at hall
    have hb : b ≠ [] ∧ '/' ∉ b := hall b (by simp)
    have hres : resolvePath p = '/' :: (joinParts ts ++ b) := by
      rw [resolvePath, if_neg hne]
      simp only [h]
      have hjoin : ('/' :: joinParts (ts ++ [b])) =
          ('/' :: (joinParts ts ++ b)) ++ ['/'] := by
        rw [joinParts_concat]; simp
      rw [if_neg (by simp), hjoin, List.dropLast_concat]
    rw [hres]
    refine ⟨rfl, ?_, ?_⟩
    · simp only [List.drop_one, List.tail_cons]
      intro hhead
      rcases ts with _ | ⟨t, ts'⟩
      · rw [joinParts_nil, List.nil_append] at hhead
        exact hb.2 (List.mem_of_mem_head? hhead)
      · have ht : t ≠ [] ∧ '/' ∉ t := hall t (by simp)
        rw [joinParts_cons] at hhead
        rcases t with _ | ⟨c, t'⟩
        · exact ht.1 rfl
        · simp only [List.cons_append, List.head?_cons, Option.some.injEq] at hhead
          exact ht.2 (by rw [hhead]; exact List.mem_cons_self _ _)
    · rw [show ('/' :: (joinParts ts ++ b) : FPath) = ('/' :: joinParts ts) ++ b by simp]
      rw [List.getLast?_append_of_ne_nil _ hb.1]
      intro hlast
      exact hb.2 (List.mem_of_mem_getLast? hlast)

/-- C7, amended. resolvePath is a pure total Lean function (hence pure and
total as claimed). The literal separator input resolves to the
separator. Any other input whose token stack resolves to empty yields
the empty string rather than the separator. Whenever the resolved token
stack is nonempty, the result is in canonical absolute form: it begins
with a single separator (the second character is not a separator) and
does not end with one. -/
theorem c7_resolvePath_amended (p : FPath) :
    (p = ['/'] → resolvePath p = ['/']) ∧
    (p ≠ ['/'] → resolveStack (tokenizePath p) = [] → resolvePath p = []) ∧
    (p ≠ ['/'] → resolveStack (tokenizePath p) ≠ [] →
      (resolvePath p).head? = some '/' ∧
      ((resolvePath p).drop 1).head? ≠ some '/' ∧
      (resolvePath p).getLast? ≠ some '/') :=
  resolvePath_canonical_spec p

/-- Closed instance of the amended C7 statement at a concrete input with a
nonempty resolved token stack. -/
theorem c7_witness :
    (resolvePath ['/', 'a']).head? = some '/' ∧
      ((resolvePath ['/', 'a']).drop 1).head? ≠ some '/' ∧
      (resolvePath ['/', 'a']).getLast? ≠ some '/' :=
  (c7_resolvePath_amended ['/', 'a']).2.2 (by decide) (by decide)

/-! ## Claim C10: listDirectory resolves only the existence check -/

/-- State with a directory at canonical path "/d" containing one file
"/d/f", built by the public operations from a fresh manager. -/
def c10State : FS :=
  (createFile 10 ['/', 'd', '/', 'f'] 0
    ((createDirectory 10 ['/', 'd'] (initFileSystem (FS.new 4))).1)).1

/-- C10. listDirectory("d") and listDirectory("/x/../d") pass the
existence/kind check through the resolved path "/d" and succeed, yet
return the empty list because the child scan matches the raw argument
string; the same directory listed by its canonical path returns its
child. -/
theorem c10_listDirectory_raw_prefix_mismatch :
    findEntry c10State.table ['d'] =
      some { name := ['/', 'd'], type := FileType.Directory, size := 0, blockIndices := [] } ∧
    listDirectory c10State.table ['d'] = Except.ok [] ∧
    listDirectory c10State.table ['/', 'x', '/', '.', '.', '/', 'd'] = Except.ok [] ∧
    listDirectory c10State.table ['/', 'd'] = Except.ok [['f']] := by
  decide

/-! ## Claim C5: root protection (violated by the code) -/

/-- C5, evaluated at the failing input. In the initialized file system
(root directory only), deleteDirectory("/", false) and
deleteDirectory("/", true) both succeed and remove the root entry: the
code has no guard protecting the root path, and the root-directory
invariant does not survive these public operations. -/
theorem c5_deleteDirectory_root_unprotected :
    getEntry (initFileSystem (FS.new 4)).table ['/'] = some rootEntry ∧
    (deleteDirectory 10 ['/'] false (initFileSystem (FS.new 4))).2 = Except.ok () ∧
    (deleteDirectory 10 ['/'] false (initFileSystem (FS.new 4))).1.table = [] ∧
    (deleteDirectory 10 ['/'] true (initFileSystem (FS.new 4))).2 = Except.ok () ∧
    (deleteDirectory 10 ['/'] true (initFileSystem (FS.new 4))).1.table = [] := by
  decide

/-! ## Claim C4: createFile rollback on partial allocation (absent) -/

/-- C4, evaluated at the failing input. With capacity 1, creating a file
of 4097 bytes needs two blocks: the first allocation succeeds, the
second throws CapacityExhausted, and the error propagates with block 0
still marked occupied while the table holds only the root entry — the
block allocated earlier in the call is not rolled back and belongs to no
entry. -/
theorem c4_createFile_no_rollback :
    (createFile 10 ['/', 'a'] 4097 (initFileSystem (FS.new 1))).2 =
      Except.error Err.capacityExhausted ∧
    (createFile 10 ['/', 'a'] 4097 (initFileSystem (FS.new 1))).1.bitmap 0 = false ∧
    (createFile 10 ['/', 'a'] 4097 (initFileSystem (FS.new 1))).1.table = [rootEntry] := by
  decide

/-! ## Claim C9: moveDirectory never removes its source entry -/

/-- State with directory "/a" containing the empty file "/a/f". -/
def c9State : FS :=
  (createFile 10 ['/', 'a', '/', 'f'] 0
    ((createDirectory 10 ['/', 'a'] (initFileSystem (FS.new 4))).1)).1

/-- C9, evaluated at the failing input. moveDirectory("/a", "/b") moves
the child and creates the destination entry, but its final step calls
deleteFile on the source directory, which always throws NotAFile: the
call propagates an error and the source directory entry is still in the
table afterwards, so no successful call exists and the source entry is
never removed. -/
theorem c9_moveDirectory_deleteFile_on_directory :
    (moveDirectory 10 ['/', 'a'] ['/', 'b'] c9State).2 = Except.error Err.notAFile ∧
    getEntry (moveDirectory 10 ['/', 'a'] ['/', 'b'] c9State).1.table ['/', 'a'] =
      some { name := ['/', 'a'], type := FileType.Directory, size := 0, blockIndices := [] } ∧
    (getEntry (moveDirectory 10 ['/', 'a'] ['/', 'b'] c9State).1.table
      ['/', 'b', '/', 'f']).isSome = true := by
  decide

/-! ## Claim C2: block accounting (violated by the code) -/

/-- State with file "/d/a" of one byte occupying block 0, inside
directory "/d". -/
def c2State : FS :=
  (createFile 10 ['/', 'd', '/', 'a'] 1
    ((createDirectory 10 ['/', 'd'] (initFileSystem (FS.new 4))).1)).1

/-- C2, evaluated at the failing input. moveFile("/d/a", "/d/b") completes
successfully, yet afterwards block 0 (the block chain of the old source
entry) is still marked occupied in the bitmap while no entry in the
table references it: moveFile removes the source key without freeing its
blocks, so a successful public operation leaks occupied blocks and the
claimed invariant fails. -/
theorem c2_moveFile_leaks_source_blocks :
    getEntry c2State.table ['/', 'd', '/', 'a'] =
      some { name := ['/', 'd', '/', 'a'], type := FileType.File, size := 1,
             blockIndices := [0] } ∧
    (moveFile 10 ['/', 'd', '/', 'a'] ['/', 'd', '/', 'b'] c2State).2 = Except.ok () ∧
    (moveFile 10 ['/', 'd', '/', 'a'] ['/', 'd', '/', 'b'] c2State).1.bitmap 0 = false ∧
    (∀ e ∈ (moveFile 10 ['/', 'd', '/', 'a'] ['/', 'd', '/', 'b'] c2State).1.table,
      0 ∉ e.blockIndices) := by
  decide

/-! ## Claim C6: deleteDirectory emptiness test -/

/-- State with directories "/" and "/foo" and a file "/foo2": the file is
a string-prefix neighbour of "/foo" but not its descendant. -/
def c6State : FS :=
  (createFile 10 ['/', 'f', 'o', 'o', '2'] 0
    ((createDirectory 10 ['/', 'f', 'o', 'o'] (initFileSystem (FS.new 4))).1)).1

/-- Counterexample to C6 as stated: no entry of the table is a strict
descendant of "/foo" (no key extends "/foo" plus the separator), yet
deleteDirectory("/foo", false) fails with DirectoryNotEmpty because the
neighbour "/foo2" passes the raw prefix test of the loop. -/
theorem c6_counterexample :
    (∀ e ∈ c6State.table, ¬ (['/', 'f', 'o', 'o', '/'].isPrefixOf e.name = true)) ∧
    (deleteDirectory 10 ['/', 'f', 'o', 'o'] false c6State).2 =
      Except.error Err.directoryNotEmpty := by
  decide

theorem ddLoop_nonrec_spec (p : FPath) (entries : List FileEntry) :
    ∀ (fuel : Nat) (s : FS), entries.length < fuel →
    ddLoop fuel p false entries s =
      if entries.any (fun e => p.isPrefixOf e.name && e.name != p)
      then (s, Except.error Err.directoryNotEmpty) else (s, Except.ok ()) := by
  induction entries with
  | nil =>
    intro fuel s hf
    match fuel, hf with
    | fuel + 1, _ => simp [ddLoop]
  | cons e rest ih =>
    intro fuel s hf
    match fuel, hf with
    | fuel + 1, hf =>
      by_cases hmatch : (p.isPrefixOf e.name && e.name != p) = true
      · simp only [ddLoop, hmatch, if_true, Bool.not_false, List.any_cons, Bool.true_or]
      · have hm : (p.isPrefixOf e.name && e.name != p) = false :=
          Bool.eq_false_iff.mpr hmatch
        simp only [ddLoop, hm, Bool.false_eq_true, if_false, List.any_cons, Bool.false_or]
        exact ih fuel s (by simp at hf; omega)

/-- C6, amended. For an existing directory entry at a canonical path p,
deleteDirectory(p, false) fails with DirectoryNotEmpty exactly when some
other table entry has p as a plain string prefix — including non-descend
ant neighbours such as "/foo2" for "/foo" — and performs no mutation on
that failure; when no such entry exists it succeeds and removes exactly
p's own entry. The fuel bound exceeds the table length so that the model
loop runs to completion as the source loop does. -/
theorem c6_deleteDirectory_amended (s : FS) (p : FPath) (entry : FileEntry) (fuel : Nat)
    (hfuel : s.table.length < fuel)
    (hfind : getEntry s.table p = some entry)
    (hdir : entry.type = FileType.Directory)
    (hres : resolvePath p = p) :
    deleteDirectory (fuel + 1) p false s =
      if ∃ e ∈ s.table, p.isPrefixOf e.name = true ∧ e.name ≠ p
      then (s, Except.error Err.directoryNotEmpty)
      else ({ s with table := removeEntry s.table p }, Except.ok ()) := by
  have hfind2 : findEntry s.table p = some entry := by
    rw [findEntry, hres]; exact hfind
  simp only [deleteDirectory, hfind2, hdir]
  rw [if_neg (by simp)]
  rw [ddLoop_nonrec_spec p s.table fuel s hfuel]
  by_cases hex : ∃ e ∈ s.table, p.isPrefixOf e.name = true ∧ e.name ≠ p
  · rw [if_pos hex]
    have hany : s.table.any (fun e => p.isPrefixOf e.name && e.name != p) = true := by
      rw [List.any_eq_true]
      obtain ⟨e, he, h1, h2⟩ := hex
      exact ⟨e, he, by simp [h1, h2]⟩
    rw [if_pos hany]
    rfl
  · rw [if_neg hex]
    have hany : ¬ s.table.any (fun e => p.isPrefixOf e.name && e.name != p) = true := by
      rw [List.any_eq_true]
      intro ⟨e, he, hcond⟩
      simp only [Bool.and_eq_true, bne_iff_ne] at hcond
      exact hex ⟨e, he, hcond.1, hcond.2⟩
    rw [if_neg hany]
    rfl

/-- Closed instance of the amended C6 statement: with only the root and
the empty directory "/foo" in the table, deletion succeeds and removes
exactly that entry. -/
theorem c6_witness :
    deleteDirectory 5 ['/', 'f', 'o', 'o'] false
        ((createDirectory 10 ['/', 'f', 'o', 'o'] (initFileSystem (FS.new 4))).1) =
      if ∃ e ∈ ((createDirectory 10 ['/', 'f', 'o', 'o'] (initFileSystem (FS.new 4))).1).table,
          (['/', 'f', 'o', 'o'] : FPath).isPrefixOf e.name = true ∧ e.name ≠ ['/', 'f', 'o', 'o']
      then ((createDirectory 10 ['/', 'f', 'o', 'o'] (initFileSystem (FS.new 4))).1,
        Except.error Err.directoryNotEmpty)
      else ({ (createDirectory 10 ['/', 'f', 'o', 'o'] (initFileSystem (FS.new 4))).1 with
          table := removeEntry
            ((createDirectory 10 ['/', 'f', 'o', 'o'] (initFileSystem (FS.new 4))).1).table
            ['/', 'f', 'o', 'o'] }, Except.ok ()) :=
  c6_deleteDirectory_amended _ _
    { name := ['/', 'f', 'o', 'o'], type := FileType.Directory, size := 0, blockIndices := [] }
    4 (by decide) (by decide) (by decide) (by decide)

/-! ## Claim C3: writeFile atomicity -/

theorem FS.ext' (a b : FS) (h1 : a.numBlocks = b.numBlocks)
    (h2 : ∀ i, a.bitmap i = b.bitmap i) (h3 : a.disk = b.disk)
    (h4 : a.table = b.table) : a = b := by
  cases a; cases b
  simp_all
  exact funext h2

theorem wfFree_spec (L : List Nat) :
    ∀ s : FS, (∀ b ∈ L, b < s.numBlocks) →
    (wfFree L s).2 = Except.ok () ∧
    (wfFree L s).1.numBlocks = s.numBlocks ∧
    (wfFree L s).1.disk = s.disk ∧
    (wfFree L s).1.table = s.table ∧
    ∀ b, (wfFree L s).1.bitmap b = if b ∈ L then true else s.bitmap b := by
  induction L with
  | nil =>
    intro s _
    refine ⟨rfl, rfl, rfl, rfl, fun b => by simp [wfFree]⟩
  | cons i rest ih =>
    intro s hlt
    have hi : i < s.numBlocks := hlt i (List.mem_cons_self _ _)
    have hfree : setBlockFree i s = (setFreeFS s i, Except.ok ()) := by
      rw [setBlockFree, if_neg (Nat.not_le.mpr hi)]
    have hstep : wfFree (i :: rest) s = wfFree rest (setFreeFS s i) := by
      rw [wfFree, hfree, bindE_ok]
    obtain ⟨hok, hnb, hdk, htb, hbm⟩ := ih (setFreeFS s i)
      (fun b hb => by rw [setFreeFS_numBlocks]; exact hlt b (List.mem_cons_of_mem _ hb))
    rw [hstep]
    refine ⟨hok, by rw [hnb, setFreeFS_numBlocks], hdk, by rw [htb, setFreeFS_table], ?_⟩
    intro b
    rw [hbm b]
    by_cases hmem : b ∈ rest
    · simp [hmem]
    · by_cases hbi : b = i
      · subst hbi
        simp [hmem, setFreeFS]
      · simp [hmem, hbi, setFreeFS]

theorem wfWrite_ok (d : Data) (pairs : List (Nat × Nat)) :
    ∀ s : FS, (∀ pr ∈ pairs, pr.2 < s.numBlocks) →
    (wfWrite d pairs s).2 = Except.ok () ∧
    (wfWrite d pairs s).1.numBlocks = s.numBlocks ∧
    (wfWrite d pairs s).1.table = s.table := by
  induction pairs with
  | nil => intro s _; exact ⟨rfl, rfl, rfl⟩
  | cons pr rest ih =>
    intro s hlt
    obtain ⟨idx, b⟩ := pr
    have hb : b < s.numBlocks := hlt (idx, b) (List.mem_cons_self _ _)
    have hchunk : ¬ BLOCK_SIZE < ((d.drop (idx * BLOCK_SIZE)).take BLOCK_SIZE).length := by
      have := List.length_take_le BLOCK_SIZE (d.drop (idx * BLOCK_SIZE))
      omega
    have hwb : writeBlock b ((d.drop (idx * BLOCK_SIZE)).take BLOCK_SIZE) s =
        (setOccupiedFS (storeBlockFS s b ((d.drop (idx * BLOCK_SIZE)).take BLOCK_SIZE)) b,
          Except.ok ()) := by
      rw [writeBlock, if_neg hchunk, if_neg (Nat.not_le.mpr hb)]
    have hstep : wfWrite d ((idx, b) :: rest) s =
        wfWrite d rest
          (setOccupiedFS (storeBlockFS s b ((d.drop (idx * BLOCK_SIZE)).take BLOCK_SIZE)) b) := by
      rw [wfWrite, hwb, bindE_ok]
    obtain ⟨hok, hnb, htb⟩ := ih _ (fun q hq => by
      rw [setOccupiedFS_numBlocks, storeBlockFS_numBlocks]
      exact hlt q (List.mem_cons_of_mem _ hq))
    rw [hstep]
    exact ⟨hok, by rw [hnb, setOccupiedFS_numBlocks, storeBlockFS_numBlocks],
      by rw [htb, setOccupiedFS_table, storeBlockFS_table]⟩

theorem snd_mem_of_mem_enumFrom {l : List Nat} :
    ∀ (n : Nat) (pr : Nat × Nat), pr ∈ l.enumFrom n → pr.2 ∈ l := by
  induction l with
  | nil => intro n pr h; simp [List.enumFrom] at h
  | cons a t ih =>
    intro n pr h
    rw [List.enumFrom] at h
    rcases List.mem_cons.mp h with h | h
    · subst h; exact List.mem_cons_self _ _
    · exact List.mem_cons_of_mem _ (ih (n + 1) pr h)

theorem snd_mem_of_mem_enum {l : List Nat} (pr : Nat × Nat) (h : pr ∈ l.enum) :
    pr.2 ∈ l :=
  snd_mem_of_mem_enumFrom 0 pr h

theorem getEntry_eq_none_of_names (t : List FileEntry) (n : FPath)
    (h : ∀ e ∈ t, e.name ≠ n) : getEntry t n = none := by
  rw [getEntry, List.find?_eq_none]
  intro e he
  simp only [beq_eq_false_iff_ne, ne_eq, beq_iff_eq]
  exact h e he

theorem getEntry_removeEntry_self (t : List FileEntry) (n : FPath)
    (hnd : (t.map FileEntry.name).Nodup) :
    getEntry (removeEntry t n) n = none := by
  induction t with
  | nil => rfl
  | cons e rest ih =>
    rw [List.map_cons, List.nodup_cons] at hnd
    by_cases he : e.name = n
    · have hstep : removeEntry (e :: rest) n = rest := by
        simp [removeEntry, List.eraseP_cons, he]
      rw [hstep]
      refine getEntry_eq_none_of_names rest n (fun e' he' contra => hnd.1 ?_)
      rw [he, ← contra]
      exact List.mem_map_of_mem _ he'
    · have hstep : removeEntry (e :: rest) n = e :: removeEntry rest n := by
        simp [removeEntry, List.eraseP_cons, he]
      rw [hstep, getEntry, List.find?_cons_of_neg _ (by simpa using he)]
      exact ih hnd.2

theorem setOccupiedFS_disk (s : FS) (i : Nat) : (setOccupiedFS s i).disk = s.disk := rfl

theorem allocateBlock_ok (s s' : FS) (b : Nat)
    (h : allocateBlock s = (s', Except.ok b)) :
    s.bitmap b = true ∧ b < s.numBlocks ∧ s' = setOccupiedFS s b := by
  unfold allocateBlock at h
  cases hf : (List.range s.numBlocks).find? (fun i => s.bitmap i) with
  | none => rw [hf] at h; simp at h
  | some i =>
    rw [hf] at h
    obtain ⟨h1, h2⟩ := Prod.mk.injEq .. ▸ h
    obtain rfl : i = b := by cases h2; rfl
    refine ⟨by simpa using List.find?_some hf, ?_, h1.symm⟩
    have := List.mem_range.mp (List.mem_of_find?_eq_some hf)
    exact this

theorem allocateBlock_error (s s' : FS) (e : Err)
    (h : allocateBlock s = (s', Except.error e)) : s' = s := by
  unfold allocateBlock at h
  cases hf : (List.range s.numBlocks).find? (fun i => s.bitmap i) with
  | none => rw [hf] at h; cases h; rfl
  | some i => rw [hf] at h; cases h

theorem wfAlloc_spec (old : List Nat) :
    ∀ (k j : Nat) (acc : List Nat) (s : FS), acc.length = j →
    ∃ F : List Nat,
      ((wfAlloc old (List.range' j k) acc s).2.1).drop old.length
          = acc.drop old.length ++ F ∧
      F.Nodup ∧
      (∀ b ∈ F, s.bitmap b = true ∧ b < s.numBlocks) ∧
      (wfAlloc old (List.range' j k) acc s).1.numBlocks = s.numBlocks ∧
      (wfAlloc old (List.range' j k) acc s).1.disk = s.disk ∧
      (wfAlloc old (List.range' j k) acc s).1.table = s.table ∧
      (∀ b, (wfAlloc old (List.range' j k) acc s).1.bitmap b
          = if b ∈ F then false else s.bitmap b) ∧
      (∀ b ∈ (wfAlloc old (List.range' j k) acc s).2.1, b ∈ acc ∨ b ∈ old ∨ b ∈ F) := by
  intro k
  induction k with
  | zero =>
    intro j acc s _
    refine ⟨[], by simp [wfAlloc], List.nodup_nil, by simp, rfl, rfl, rfl,
      fun b => by simp [wfAlloc], fun b hb => Or.inl (by simpa [wfAlloc] using hb)⟩
  | succ k ih =>
    intro j acc s hlen
    rw [List.range'_succ]
    by_cases hj : j < old.length
    · have hstep : wfAlloc old (j :: List.range' (j + 1) k) acc s
          = wfAlloc old (List.range' (j + 1) k) (acc ++ [old.getD j 0]) s := by
        rw [wfAlloc, if_pos hj]
      obtain ⟨F, hdrop, hnd, hfree, hnb, hdk, htb, hbm, hmem⟩ :=
        ih (j + 1) (acc ++ [old.getD j 0]) s (by simp [hlen])
      have hd1 : acc.drop old.length = [] :=
        List.drop_eq_nil_of_le (by omega)
      have hd2 : (acc ++ [old.getD j 0]).drop old.length = [] :=
        List.drop_eq_nil_of_le (by simp; omega)
      refine ⟨F, ?_, hnd, hfree, hstep ▸ hnb, hstep ▸ hdk, hstep ▸ htb,
        fun b => hstep ▸ hbm b, ?_⟩
      · rw [hstep, hdrop, hd1, hd2]
      · intro b hb
        rw [hstep] at hb
        rcases hmem b hb with h | h | h
        · rcases List.mem_append.mp h with h | h
          · exact Or.inl h
          · refine Or.inr (Or.inl ?_)
            rcases List.mem_singleton.mp h with rfl
            rw [List.getD_eq_getElem old 0 hj]
            exact List.getElem_mem hj
        · exact Or.inr (Or.inl h)
        · exact Or.inr (Or.inr h)
    · rcases halloc : allocateBlock s with ⟨s', r⟩
      cases r with
      | error e =>
          have hs' : s = s' := (allocateBlock_error s s' e halloc).symm
          subst hs'
          have hstep : wfAlloc old (j :: List.range' (j + 1) k) acc s = (s, (acc, some e)) := by
            rw [wfAlloc, if_neg hj, halloc]
          refine ⟨[], by rw [hstep]; simp, List.nodup_nil, by simp, by rw [hstep],
            by rw [hstep], by rw [hstep], fun b => by rw [hstep]; simp,
            fun b hb => Or.inl (by rw [hstep] at hb; exact hb)⟩
      | ok b =>
          obtain ⟨hfreeb, hltb, rfl⟩ := allocateBlock_ok s s' b halloc
          have hstep : wfAlloc old (j :: List.range' (j + 1) k) acc s
              = wfAlloc old (List.range' (j + 1) k) (acc ++ [b]) (setOccupiedFS s b) := by
            rw [wfAlloc, if_neg hj, halloc]
          obtain ⟨F', hdrop, hnd, hfree, hnb, hdk, htb, hbm, hmem⟩ :=
            ih (j + 1) (acc ++ [b]) (setOccupiedFS s b) (by simp [hlen])
          have hbF' : b ∉ F' := by
            intro hb
            have := (hfree b hb).1
            rw [setOccupiedFS_bitmap, if_pos rfl] at this
            cases this
          refine ⟨b :: F', ?_, List.nodup_cons.mpr ⟨hbF', hnd⟩, ?_, ?_, ?_, ?_, ?_, ?_⟩
          · rw [hstep, hdrop, List.drop_append_of_le_length (by omega)]
            simp
          · intro x hx
            rcases List.mem_cons.mp hx with rfl | hx
            · exact ⟨hfreeb, hltb⟩
            · obtain ⟨h1, h2⟩ := hfree x hx
              rw [setOccupiedFS_bitmap] at h1
              rw [setOccupiedFS_numBlocks] at h2
              refine ⟨?_, h2⟩
              by_cases hxb : x = b
              · rw [if_pos hxb] at h1; cases h1
              · rwa [if_neg hxb] at h1
          · rw [hstep, hnb, setOccupiedFS_numBlocks]
          · rw [hstep, hdk, setOccupiedFS_disk]
          · rw [hstep, htb, setOccupiedFS_table]
          · intro x
            rw [hstep, hbm x, setOccupiedFS_bitmap]
            by_cases hx : x ∈ F'
            · simp [hx]
            · by_cases hxb : x = b
              · simp [hx, hxb]
              · simp [hx, hxb]
          · intro x hx
            rw [hstep] at hx
            rcases hmem x hx with h | h | h
            · rcases List.mem_append.mp h with h | h
              · exact Or.inl h
              · rcases List.mem_singleton.mp h with rfl
                exact Or.inr (Or.inr (List.mem_cons_self _ _))
            · exact Or.inr (Or.inl h)
            · exact Or.inr (Or.inr (List.mem_cons_of_mem _ h))

/-- C3. writeFile is atomic on failure: whenever a call returns an error,
the visible state is exactly the initial one — in particular every block
allocated during the call has been freed again and the entry's size and
block list are unmodified. The hypotheses say that the entry block lists
are in range and that table keys are unique, both of which hold in every
state the public operations produce. -/
theorem c3_writeFile_atomic (s : FS) (p : FPath) (data : Data) (append : Bool) (e : Err)
    (hblocks : ∀ en ∈ s.table, ∀ b ∈ en.blockIndices, b < s.numBlocks)
    (hnames : (s.table.map FileEntry.name).Nodup)
    (herr : (writeFile p data append s).2 = Except.error e) :
    (writeFile p data append s).1 = s := by
  rw [writeFile] at herr ⊢
  cases hfind : findEntry s.table p with
  | none => rfl
  | some entry =>
    rw [hfind] at herr
    simp only [] at herr ⊢
    by_cases htype : entry.type = FileType.File
    case neg =>
      rw [if_pos htype] at herr ⊢
    case pos =>
      rw [if_neg (fun h => h htype)] at herr ⊢
      cases hread : (if append = true then readFile s p else Except.ok []) with
      | error e' => rfl
      | ok existing =>
        rw [hread] at herr
        simp only [] at herr ⊢
        by_cases hsz : MAX_BLOCKS * BLOCK_SIZE < (existing ++ data).length
        case pos => rw [if_pos hsz] at herr ⊢
        case neg =>
          rw [if_neg hsz] at herr ⊢
          have hfind2 : s.table.find? (fun en => en.name == resolvePath p) = some entry :=
            hfind
          have hmem_entry : entry ∈ s.table := List.mem_of_find?_eq_some hfind2
          have hold : ∀ b ∈ entry.blockIndices, b < s.numBlocks := hblocks entry hmem_entry
          rw [List.range_eq_range'] at herr ⊢
          obtain ⟨F, hdrop, hnd, hfree, hnb, hdk, htb, hbm, hmemF⟩ :=
            wfAlloc_spec entry.blockIndices
              (((existing ++ data).length + BLOCK_SIZE - 1) / BLOCK_SIZE) 0 [] s rfl
          cases halloc : wfAlloc entry.blockIndices
              (List.range' 0 (((existing ++ data).length + BLOCK_SIZE - 1) / BLOCK_SIZE))
              [] s with
          | mk s1 pr =>
            rw [halloc] at herr hdrop hnb hdk htb hbm hmemF
            obtain ⟨newBlocks, res⟩ := pr
            simp only [] at hdrop hnb hdk htb hbm hmemF herr ⊢
            have hdropF : newBlocks.drop entry.blockIndices.length = F := by
              simpa using hdrop
            cases res with
            | some e' =>
              simp only [] at herr ⊢
              rw [wfRollback, hdropF]
              have hFlt : ∀ b ∈ F, b < s1.numBlocks := by
                intro b hb; rw [hnb]; exact (hfree b hb).2
              obtain ⟨fok, fnb, fdk, ftb, fbm⟩ := wfFree_spec F s1 hFlt
              cases hwfr : wfFree F s1 with
              | mk s2 r2 =>
                rw [hwfr] at fok fnb fdk ftb fbm
                cases r2 with
                | error e2 => simp at fok
                | ok _ =>
                  refine FS.ext' s2 s (by rw [fnb, hnb]) ?_ (by rw [fdk, hdk]) (by rw [ftb, htb])
                  intro b
                  rw [fbm b, hbm b]
                  by_cases hb : b ∈ F
                  · simp only [hb, if_true]
                    exact ((hfree b hb).1).symm
                  · simp [hb]
            | none =>
              exfalso
              simp only [] at herr
              have hnew : ∀ b ∈ newBlocks, b < s1.numBlocks := by
                intro b hb
                rw [hnb]
                rcases hmemF b hb with h | h | h
                · simp at h
                · exact hold b h
                · exact (hfree b h).2
              obtain ⟨wok, wnb, wtb⟩ := wfWrite_ok (existing ++ data) newBlocks.enum s1
                (fun q hq => hnew q.2 (snd_mem_of_mem_enum q hq))
              cases hww : wfWrite (existing ++ data) newBlocks.enum s1 with
              | mk s2 r2 =>
                rw [hww] at wok wnb wtb herr
                cases r2 with
                | error e2 => simp at wok
                | ok _ =>
                  simp only [] at herr
                  have hdropOld : ∀ b ∈ entry.blockIndices.drop
                      (((existing ++ data).length + BLOCK_SIZE - 1) / BLOCK_SIZE),
                      b < s2.numBlocks := by
                    intro b hb
                    rw [wnb, hnb]
                    exact hold b (List.drop_subset _ _ hb)
                  obtain ⟨fok, fnb, fdk, ftb, fbm⟩ := wfFree_spec _ s2 hdropOld
                  cases hwf2 : wfFree (entry.blockIndices.drop
                      (((existing ++ data).length + BLOCK_SIZE - 1) / BLOCK_SIZE)) s2 with
                  | mk s3 r3 =>
                    rw [hwf2] at fok fnb fdk ftb fbm herr
                    cases r3 with
                    | error e3 => simp at fok
                    | ok _ =>
                      simp only [] at herr
                      have htb3 : s3.table = s.table := by rw [ftb, wtb, htb]
                      rw [addEntry] at herr
                      simp only [] at herr
                      rw [getEntry_removeEntry_self s3.table entry.name
                        (by rw [htb3]; exact hnames)] at herr
                      simp at herr

/-- Closed instance of the C3 atomicity theorem: on a zero-capacity store
with one empty file, a one-byte write fails with CapacityExhausted and
the state is returned unchanged. -/
theorem c3_witness :
    (writeFile ['/', 'f'] [1] false (createFile 10 ['/', 'f'] 0 (FS.new 0)).1).1
      = (createFile 10 ['/', 'f'] 0 (FS.new 0)).1 :=
  c3_writeFile_atomic _ ['/', 'f'] [1] false Err.capacityExhausted
    (by decide) (by decide) (by decide)

/-! ## Claim C1: save/load round trip. Table invariant of reachable states -/

/-- Invariant of the file table maintained by every public operation:
keys are unique (std::unordered_map cannot hold duplicates) and an entry
stored at the root key is a directory. -/
def TableInv (t : List FileEntry) : Prop :=
  (t.map FileEntry.name).Nodup ∧
  ∀ en, getEntry t ['/'] = some en → en.type = FileType.Directory

/-- State form of the table invariant. -/
def FSInv (s : FS) : Prop := TableInv s.table

theorem getEntry_some_name (t : List FileEntry) (k : FPath) (e : FileEntry)
    (h : getEntry t k = some e) : e.name = k := by
  have := List.find?_some h
  simpa using this

theorem getEntry_some_mem (t : List FileEntry) (k : FPath) (e : FileEntry)
    (h : getEntry t k = some e) : e ∈ t :=
  List.mem_of_find?_eq_some h

theorem addEntry_ok (t t' : List FileEntry) (e : FileEntry)
    (h : addEntry t e = Except.ok t') :
    t' = t ++ [e] ∧ getEntry t e.name = none := by
  rw [addEntry] at h
  by_cases hp : (getEntry t e.name).isSome
  · rw [if_pos hp] at h; cases h
  · rw [if_neg hp] at h
    cases h
    exact ⟨rfl, Option.not_isSome_iff_eq_none.mp hp⟩

theorem addEntry_error (t : List FileEntry) (e : FileEntry) (er : Err)
    (h : addEntry t e = Except.error er) : (getEntry t e.name).isSome := by
  rw [addEntry] at h
  by_cases hp : (getEntry t e.name).isSome
  · exact hp
  · rw [if_neg hp] at h; cases h

theorem getEntry_none_names (t : List FileEntry) (k : FPath)
    (h : getEntry t k = none) : ∀ e ∈ t, e.name ≠ k := by
  intro e he
  have := List.find?_eq_none.mp h e he
  simpa using this

theorem namesNodup_append (t : List FileEntry) (e : FileEntry)
    (hnd : (t.map FileEntry.name).Nodup) (hnone : getEntry t e.name = none) :
    ((t ++ [e]).map FileEntry.name).Nodup := by
  rw [List.map_append]
  refine List.Nodup.append hnd (by simp) ?_
  intro a ha hb
  simp only [List.map_cons, List.map_nil, List.mem_singleton] at hb
  subst hb
  obtain ⟨x, hx, hxa⟩ := List.mem_map.mp ha
  exact getEntry_none_names t e.name hnone x hx hxa

theorem getEntry_append (t : List FileEntry) (e : FileEntry) (k : FPath) :
    getEntry (t ++ [e]) k =
      match getEntry t k with
      | some x => some x
      | none => if e.name == k then some e else none := by
  induction t with
  | nil =>
    cases hbe : e.name == k with
    | true => simp [getEntry, List.find?, hbe]
    | false => simp [getEntry, List.find?, hbe]
  | cons x rest ih =>
    cases hbe : x.name == k with
    | true => simp [getEntry, List.find?_cons, hbe]
    | false =>
      simp only [getEntry, List.cons_append, List.find?_cons, hbe]
      exact ih

theorem namesNodup_removeEntry (t : List FileEntry) (n : FPath)
    (hnd : (t.map FileEntry.name).Nodup) :
    ((removeEntry t n).map FileEntry.name).Nodup :=
  ((List.eraseP_sublist t).map FileEntry.name).nodup hnd

theorem getEntry_removeEntry_ne (t : List FileEntry) (n k : FPath) (h : n ≠ k) :
    getEntry (removeEntry t n) k = getEntry t k := by
  induction t with
  | nil => rfl
  | cons e rest ih =>
    by_cases hn : (e.name == n) = true
    · have hstep : removeEntry (e :: rest) n = rest := by
        simp [removeEntry, List.eraseP_cons, hn]
      have hek : (e.name == k) = false := by
        simp only [beq_iff_eq] at hn ⊢
        rw [hn]
        exact beq_eq_false_iff_ne.mpr h
      rw [hstep]
      simp only [getEntry, List.find?_cons, hek]
    · have hstep : removeEntry (e :: rest) n = e :: removeEntry rest n := by
        simp [removeEntry, List.eraseP_cons, hn]
      rw [hstep]
      cases hek : e.name == k with
      | true => simp only [getEntry, List.find?_cons, hek]
      | false =>
        simp only [getEntry, List.find?_cons, hek]
        exact ih

theorem TableInv_add_dir (t t' : List FileEntry) (e : FileEntry)
    (hinv : TableInv t) (hok : addEntry t e = Except.ok t')
    (hdir : e.type = FileType.Directory) : TableInv t' := by
  obtain ⟨rfl, hnone⟩ := addEntry_ok t t' e hok
  refine ⟨namesNodup_append t e hinv.1 hnone, ?_⟩
  intro en hen
  rw [getEntry_append] at hen
  cases hge : getEntry t ['/'] with
  | some x => rw [hge] at hen; cases hen; exact hinv.2 _ hge
  | none =>
    rw [hge] at hen
    by_cases hname : (e.name == ['/']) = true
    · rw [if_pos hname] at hen; cases hen; exact hdir
    · rw [if_neg hname] at hen; cases hen

theorem TableInv_add_nonroot (t t' : List FileEntry) (e : FileEntry)
    (hinv : TableInv t) (hok : addEntry t e = Except.ok t')
    (hname : e.name ≠ ['/']) : TableInv t' := by
  obtain ⟨rfl, hnone⟩ := addEntry_ok t t' e hok
  refine ⟨namesNodup_append t e hinv.1 hnone, ?_⟩
  intro en hen
  rw [getEntry_append] at hen
  cases hge : getEntry t ['/'] with
  | some x => rw [hge] at hen; cases hen; exact hinv.2 _ hge
  | none =>
    rw [hge] at hen
    rw [if_neg (by simpa using hname)] at hen
    cases hen

theorem TableInv_remove (t : List FileEntry) (n : FPath) (hinv : TableInv t) :
    TableInv (removeEntry t n) := by
  refine ⟨namesNodup_removeEntry t n hinv.1, ?_⟩
  intro en hen
  by_cases hn : n = ['/']
  · subst hn
    rw [getEntry_removeEntry_self t ['/'] hinv.1] at hen
    cases hen
  · rw [getEntry_removeEntry_ne t n ['/'] hn] at hen
    exact hinv.2 _ hen

theorem resolvePath_root_iff (p : FPath) : resolvePath p = ['/'] ↔ p = ['/'] := by
  constructor
  · intro h
    by_contra hne
    obtain ⟨_, h2, h3⟩ := resolvePath_canonical_spec p
    by_cases hstack : resolveStack (tokenizePath p) = []
    · rw [h2 hne hstack] at h
      cases h
    · have := (h3 hne hstack).2.2
      rw [h] at this
      exact this rfl
  · intro h; rw [h]; rfl

theorem tokenizePath_root : tokenizePath ['/'] = [] := rfl

theorem ensureParent_root (fuel : Nat) (s : FS) :
    ∃ e, ensureParentDirectories fuel ['/'] s = (s, Except.error e) := by
  cases fuel with
  | zero => exact ⟨Err.noFuel, rfl⟩
  | succ fuel => exact ⟨Err.ub, rfl⟩

theorem allocN_table (n : Nat) : ∀ s : FS, (allocN n s).1.table = s.table := by
  induction n with
  | zero => intro s; rfl
  | succ n ih =>
    intro s
    rw [allocN]
    cases halloc : allocateBlock s with
    | mk s1 r =>
      cases r with
      | error e =>
        rw [bindE_error]
        rcases (allocateBlock_error s s1 e halloc) with rfl
        rfl
      | ok b =>
        rw [bindE_ok]
        have hs1 : s1.table = s.table := by
          rcases allocateBlock_ok s s1 b halloc with ⟨_, _, rfl⟩
          rfl
        cases hrec : allocN n s1 with
        | mk s2 r2 =>
          have hs2 : s2.table = s1.table := by
            have := ih s1
            rw [hrec] at this
            exact this
          cases r2 with
          | error e => rw [bindE_error]; rw [hs2, hs1]
          | ok bs => rw [bindE_ok]; rw [hs2, hs1]

theorem deleteBlocksLoop_table (L : List Nat) :
    ∀ s : FS, (deleteBlocksLoop L s).1.table = s.table := by
  induction L with
  | nil => intro s; rfl
  | cons i rest ih =>
    intro s
    rw [deleteBlocksLoop]
    rw [deleteBlock]
    by_cases h1 : s.numBlocks ≤ i
    · rw [if_pos h1, bindE_error]
    · rw [if_neg h1]
      by_cases h2 : s.bitmap i = true
      · rw [if_pos h2, bindE_error]
      · rw [if_neg h2, bindE_ok]
        rw [ih]
        rfl

theorem wfFree_table (L : List Nat) :
    ∀ s : FS, (wfFree L s).1.table = s.table := by
  induction L with
  | nil => intro s; rfl
  | cons i rest ih =>
    intro s
    rw [wfFree, setBlockFree]
    by_cases h1 : s.numBlocks ≤ i
    · rw [if_pos h1, bindE_error]
    · rw [if_neg h1, bindE_ok, ih]
      rfl

theorem wfRollback_table (oldLen : Nat) (nb : List Nat) (e : Err) (s : FS) :
    (wfRollback oldLen nb e s).1.table = s.table := by
  rw [wfRollback]
  cases hw : wfFree (nb.drop oldLen) s with
  | mk s' r =>
    have : s'.table = s.table := by
      have := wfFree_table (nb.drop oldLen) s
      rw [hw] at this
      exact this
    cases r with
    | ok _ => exact this
    | error e2 => exact this

theorem wfWrite_table (d : Data) (pairs : List (Nat × Nat)) :
    ∀ s : FS, (wfWrite d pairs s).1.table = s.table := by
  induction pairs with
  | nil => intro s; rfl
  | cons pr rest ih =>
    intro s
    obtain ⟨idx, b⟩ := pr
    rw [wfWrite, writeBlock]
    by_cases h1 : BLOCK_SIZE < ((d.drop (idx * BLOCK_SIZE)).take BLOCK_SIZE).length
    · rw [if_pos h1, bindE_error]
    · rw [if_neg h1]
      by_cases h2 : s.numBlocks ≤ b
      · rw [if_pos h2, bindE_error]
      · rw [if_neg h2, bindE_ok, ih]
        rfl

theorem wfAlloc_table (old : List Nat) (idxs : List Nat) :
    ∀ (acc : List Nat) (s : FS), (wfAlloc old idxs acc s).1.table = s.table := by
  induction idxs with
  | nil => intro acc s; rfl
  | cons i rest ih =>
    intro acc s
    rw [wfAlloc]
    by_cases h1 : i < old.length
    · rw [if_pos h1, ih]
    · rw [if_neg h1]
      cases halloc : allocateBlock s with
      | mk s1 r =>
        cases r with
        | ok b =>
          rcases allocateBlock_ok s s1 b halloc with ⟨_, _, rfl⟩
          rw [ih]
          rfl
        | error e =>
          rcases (allocateBlock_error s s1 e halloc) with rfl
          rfl

theorem TableInv_bindE {α β : Type} (r : FS × Except Err α) (k : α → FS → FS × Except Err β)
    (h1 : TableInv r.1.table)
    (h2 : ∀ a, r.2 = Except.ok a → TableInv ((k a r.1).1.table)) :
    TableInv ((bindE r k).1.table) := by
  cases r with
  | mk s ex =>
    cases ex with
    | ok a => exact h2 a rfl
    | error e => exact h1

theorem createDirectory_family_inv (fuel : Nat) :
    (∀ (ts : List FPath) (cur : FPath) (s : FS), FSInv s → FSInv (epLoop fuel ts cur s).1) ∧
    (∀ (path : FPath) (s : FS), FSInv s → FSInv (ensureParentDirectories fuel path s).1) ∧
    (∀ (path : FPath) (s : FS), FSInv s → FSInv (createDirectory fuel path s).1) := by
  induction fuel with
  | zero =>
    exact ⟨fun _ _ s h => h, fun _ s h => h, fun _ s h => h⟩
  | succ fuel ih =>
    obtain ⟨ihL, ihE, ihC⟩ := ih
    have hL : ∀ (ts : List FPath) (cur : FPath) (s : FS), FSInv s →
        FSInv (epLoop (fuel + 1) ts cur s).1 := by
      intro ts cur s h
      cases ts with
      | nil => exact h
      | cons t rest =>
        rw [epLoop]
        cases hfind : findEntry s.table (cur ++ t) with
        | none =>
          exact TableInv_bindE _ _ (ihC (cur ++ t) s h) (fun a _ => ihL rest _ _ (ihC _ s h))
        | some e =>
          simp only []
          by_cases hdir : e.type = FileType.Directory
          · rw [if_pos hdir]
            exact ihL rest _ s h
          · rw [if_neg hdir]
            exact h
    refine ⟨hL, ?_, ?_⟩
    · intro path s h
      rw [ensureParentDirectories]
      by_cases hemp : (tokenizePath path).isEmpty
      · rw [if_pos hemp]
        exact h
      · rw [if_neg hemp]
        exact ihL _ _ s h
    · intro path s h
      rw [createDirectory]
      by_cases hval : isValidName path = true
      case neg =>
        rw [if_pos (by simp [hval])]
        exact h
      case pos =>
        rw [if_neg (by simp [hval])]
        refine TableInv_bindE _ _ (ihE (resolvePath path) s h) (fun a _ => ?_)
        by_cases hpres : (findEntry ((ensureParentDirectories fuel (resolvePath path) s).1).table
            (resolvePath path)).isSome
        · rw [if_pos hpres]
          exact ihE (resolvePath path) s h
        · rw [if_neg hpres]
          have hinv1 : FSInv (ensureParentDirectories fuel (resolvePath path) s).1 :=
            ihE (resolvePath path) s h
          cases hadd : addEntry ((ensureParentDirectories fuel (resolvePath path) s).1).table
              { name := resolvePath path, type := FileType.Directory, size := 0,
                blockIndices := [] } with
          | ok t => exact TableInv_add_dir _ t _ hinv1 hadd rfl
          | error e => exact hinv1

theorem createFile_inv (fuel : Nat) (path : FPath) (size : Nat) (s : FS) (h : FSInv s) :
    FSInv (createFile fuel path size s).1 := by
  obtain ⟨_, ihE, _⟩ := createDirectory_family_inv fuel
  rw [createFile]
  by_cases hval : isValidName path = true
  case neg =>
    rw [if_pos (by simp [hval])]
    exact h
  case pos =>
    rw [if_neg (by simp [hval])]
    by_cases hroot : resolvePath path = ['/']
    · rw [hroot]
      obtain ⟨e, he⟩ := ensureParent_root fuel s
      simp only []
      rw [he, bindE_error]
      exact h
    · refine TableInv_bindE _ _ (ihE (resolvePath path) s h) (fun a _ => ?_)
      by_cases hpres : (findEntry ((ensureParentDirectories fuel (resolvePath path) s).1).table
          (resolvePath path)).isSome
      · rw [if_pos hpres]
        exact ihE (resolvePath path) s h
      · rw [if_neg hpres]
        have hinv1 : FSInv (ensureParentDirectories fuel (resolvePath path) s).1 :=
          ihE (resolvePath path) s h
        refine TableInv_bindE _ _ ?_ (fun blocks _ => ?_)
        · have := allocN_table ((size + BLOCK_SIZE - 1) / BLOCK_SIZE)
            (ensureParentDirectories fuel (resolvePath path) s).1
          show TableInv _
          rw [this]
          exact hinv1
        · have htb := allocN_table ((size + BLOCK_SIZE - 1) / BLOCK_SIZE)
            (ensureParentDirectories fuel (resolvePath path) s).1
          cases hadd : addEntry ((allocN ((size + BLOCK_SIZE - 1) / BLOCK_SIZE)
              (ensureParentDirectories fuel (resolvePath path) s).1).1).table
              { name := resolvePath path, type := FileType.File, size := size,
                blockIndices := blocks } with
          | ok t =>
            refine TableInv_add_nonroot _ t _ ?_ hadd hroot
            rw [htb]
            exact hinv1
          | error e =>
            show TableInv _
            rw [htb]
            exact hinv1

theorem deleteFile_inv (path : FPath) (s : FS) (h : FSInv s) :
    FSInv (deleteFile path s).1 := by
  rw [deleteFile]
  cases hfind : findEntry s.table path with
  | none => exact h
  | some entry =>
    simp only []
    by_cases htype : entry.type = FileType.File
    case neg =>
      rw [if_pos htype]
      exact h
    case pos =>
      rw [if_neg (fun hc => hc htype)]
      refine TableInv_bindE _ _ ?_ (fun a _ => ?_)
      · show TableInv _
        rw [deleteBlocksLoop_table]
        exact h
      · show TableInv (removeEntry _ path)
        refine TableInv_remove _ path ?_
        rw [deleteBlocksLoop_table]
        exact h

theorem deleteDirectory_family_inv (fuel : Nat) :
    (∀ (path : FPath) (recursive : Bool) (entries : List FileEntry) (s : FS), FSInv s →
      FSInv (ddLoop fuel path recursive entries s).1) ∧
    (∀ (path : FPath) (recursive : Bool) (s : FS), FSInv s →
      FSInv (deleteDirectory fuel path recursive s).1) := by
  induction fuel with
  | zero => exact ⟨fun _ _ _ s h => h, fun _ _ s h => h⟩
  | succ fuel ih =>
    obtain ⟨ihL, ihD⟩ := ih
    have hL : ∀ (path : FPath) (recursive : Bool) (entries : List FileEntry) (s : FS),
        FSInv s → FSInv (ddLoop (fuel + 1) path recursive entries s).1 := by
      intro path recursive entries s h
      cases entries with
      | nil => exact h
      | cons e rest =>
        rw [ddLoop]
        by_cases hmatch : (path.isPrefixOf e.name && e.name != path) = true
        · rw [if_pos hmatch]
          by_cases hrec : !recursive
          · rw [if_pos hrec]
            exact h
          · rw [if_neg hrec]
            by_cases htype : e.type = FileType.File
            · rw [if_pos htype]
              exact TableInv_bindE _ _ (deleteFile_inv e.name s h)
                (fun a _ => ihL path recursive rest _ (deleteFile_inv e.name s h))
            · rw [if_neg htype]
              exact TableInv_bindE _ _ (ihD e.name true s h)
                (fun a _ => ihL path recursive rest _ (ihD e.name true s h))
        · rw [if_neg hmatch]
          exact ihL path recursive rest s h
    refine ⟨hL, ?_⟩
    intro path recursive s h
    rw [deleteDirectory]
    cases hfind : findEntry s.table path with
    | none => exact h
    | some entry =>
      simp only []
      by_cases htype : entry.type = FileType.Directory
      case neg =>
        rw [if_pos htype]
        exact h
      case pos =>
        rw [if_neg (fun hc => hc htype)]
        refine TableInv_bindE _ _ (ihL path recursive s.table s h) (fun a _ => ?_)
        exact TableInv_remove _ path (ihL path recursive s.table s h)

theorem writeFile_inv (p : FPath) (data : Data) (append : Bool) (s : FS) (h : FSInv s) :
    FSInv (writeFile p data append s).1 := by
  rw [writeFile]
  cases hfind : findEntry s.table p with
  | none => exact h
  | some entry =>
    simp only []
    by_cases htype : entry.type = FileType.File
    case neg =>
      rw [if_pos htype]
      exact h
    case pos =>
      rw [if_neg (fun hc => hc htype)]
      have hname : entry.name = resolvePath p :=
        getEntry_some_name s.table (resolvePath p) entry hfind
      have hnroot : entry.name ≠ ['/'] := by
        intro hroot
        have hrp : resolvePath p = ['/'] := by rw [← hname, hroot]
        have hfindg : getEntry s.table (resolvePath p) = some entry := hfind
        rw [hrp] at hfindg
        have := h.2 entry hfindg
        rw [this] at htype
        cases htype
      cases hread : (if append = true then readFile s p else Except.ok []) with
      | error e => exact h
      | ok existing =>
        simp only []
        by_cases hsz : MAX_BLOCKS * BLOCK_SIZE < (existing ++ data).length
        case pos =>
          rw [if_pos hsz]
          exact h
        case neg =>
          rw [if_neg hsz]
          cases halloc : wfAlloc entry.blockIndices
              (List.range (((existing ++ data).length + BLOCK_SIZE - 1) / BLOCK_SIZE))
              [] s with
          | mk s1 pr =>
            obtain ⟨newBlocks, res⟩ := pr
            have hs1tb : s1.table = s.table := by
              have := wfAlloc_table entry.blockIndices
                (List.range (((existing ++ data).length + BLOCK_SIZE - 1) / BLOCK_SIZE)) [] s
              rw [halloc] at this
              exact this
            cases res with
            | some e =>
              simp only []
              show TableInv _
              rw [wfRollback_table, hs1tb]
              exact h
            | none =>
              simp only []
              cases hww : wfWrite (existing ++ data) newBlocks.enum s1 with
              | mk s2 r2 =>
                have hs2tb : s2.table = s1.table := by
                  have := wfWrite_table (existing ++ data) newBlocks.enum s1
                  rw [hww] at this
                  exact this
                cases r2 with
                | error e =>
                  simp only []
                  show TableInv _
                  rw [wfRollback_table, hs2tb, hs1tb]
                  exact h
                | ok _ =>
                  simp only []
                  cases hwf2 : wfFree (entry.blockIndices.drop
                      (((existing ++ data).length + BLOCK_SIZE - 1) / BLOCK_SIZE)) s2 with
                  | mk s3 r3 =>
                    have hs3tb : s3.table = s2.table := by
                      have := wfFree_table (entry.blockIndices.drop
                        (((existing ++ data).length + BLOCK_SIZE - 1) / BLOCK_SIZE)) s2
                      rw [hwf2] at this
                      exact this
                    have hinv3 : TableInv s3.table := by
                      rw [hs3tb, hs2tb, hs1tb]
                      exact h
                    cases r3 with
                    | error e =>
                      simp only []
                      show TableInv _
                      rw [wfRollback_table, hs3tb, hs2tb, hs1tb]
                      exact h
                    | ok _ =>
                      simp only []
                      cases hadd : addEntry (removeEntry s3.table entry.name) { entry with size := (existing ++ data).length, blockIndices := newBlocks } with
                      | error e =>
                        simp only []
                        show TableInv _
                        rw [wfRollback_table]
                        exact TableInv_remove s3.table entry.name hinv3
                      | ok t2 =>
                        simp only []
                        show TableInv t2
                        exact TableInv_add_nonroot _ t2 _
                          (TableInv_remove s3.table entry.name hinv3) hadd hnroot

theorem moveFile_inv (fuel : Nat) (src dst : FPath) (s : FS) (h : FSInv s) :
    FSInv (moveFile fuel src dst s).1 := by
  rw [moveFile]
  simp only []
  by_cases heq : resolvePath src = resolvePath dst
  · rw [if_pos heq]
    exact h
  · rw [if_neg heq]
    cases hfind : findEntry s.table (resolvePath src) with
    | none => exact h
    | some sourceEntry =>
      simp only []
      by_cases htype : sourceEntry.type = FileType.File
      case neg =>
        rw [if_pos htype]
        exact h
      case pos =>
        rw [if_neg (fun hc => hc htype)]
        by_cases hpar : (findEntry s.table
            (resolvePath (beforeLastSlash (resolvePath dst)))).isNone
        · rw [if_pos hpar]
          exact h
        · rw [if_neg hpar]
          cases hread : readFile s (resolvePath src) with
          | error e => exact h
          | ok fileData =>
            simp only []
            refine TableInv_bindE _ _ (createFile_inv fuel (resolvePath dst)
              sourceEntry.size s h) (fun a _ => ?_)
            refine TableInv_bindE _ _ (writeFile_inv (resolvePath dst) fileData false _
              (createFile_inv fuel (resolvePath dst) sourceEntry.size s h)) (fun b _ => ?_)
            exact TableInv_remove _ (resolvePath src)
              (writeFile_inv (resolvePath dst) fileData false _
                (createFile_inv fuel (resolvePath dst) sourceEntry.size s h))

theorem moveDirectory_family_inv (fuel : Nat) :
    (∀ (srcR destR : FPath) (items : List FPath) (s : FS), FSInv s →
      FSInv (mdLoop fuel srcR destR items s).1) ∧
    (∀ (src dst : FPath) (s : FS), FSInv s → FSInv (moveDirectory fuel src dst s).1) := by
  induction fuel with
  | zero => exact ⟨fun _ _ _ s h => h, fun _ _ s h => h⟩
  | succ fuel ih =>
    obtain ⟨ihL, ihM⟩ := ih
    have hL : ∀ (srcR destR : FPath) (items : List FPath) (s : FS), FSInv s →
        FSInv (mdLoop (fuel + 1) srcR destR items s).1 := by
      intro srcR destR items s h
      cases items with
      | nil => exact h
      | cons item rest =>
        rw [mdLoop]
        cases hfind : findEntry s.table (srcR ++ ['/'] ++ item) with
        | none => exact ihL srcR destR rest s h
        | some e =>
          simp only []
          by_cases htype : e.type = FileType.File
          · rw [if_pos htype]
            exact TableInv_bindE _ _ (moveFile_inv fuel _ _ s h)
              (fun a _ => ihL srcR destR rest _ (moveFile_inv fuel _ _ s h))
          · rw [if_neg htype]
            exact TableInv_bindE _ _ (ihM _ _ s h)
              (fun a _ => ihL srcR destR rest _ (ihM _ _ s h))
    refine ⟨hL, ?_⟩
    intro src dst s h
    rw [moveDirectory]
    simp only []
    by_cases heq : resolvePath src = resolvePath dst
    · rw [if_pos heq]
      exact h
    · rw [if_neg heq]
      by_cases hpre : src.isPrefixOf dst = true
      · rw [if_pos hpre]
        exact h
      · rw [if_neg hpre]
        cases hfind : findEntry s.table (resolvePath src) with
        | none => exact h
        | some sourceEntry =>
          simp only []
          by_cases htype : sourceEntry.type = FileType.Directory
          case neg =>
            rw [if_pos htype]
            exact h
          case pos =>
            rw [if_neg (fun hc => hc htype)]
            cases hadd : addEntry s.table { sourceEntry with name := resolvePath dst } with
            | error e => exact h
            | ok t =>
              simp only []
              have hinvt : FSInv { s with table := t } :=
                TableInv_add_dir s.table t _ h hadd htype
              cases hlist : listDirectory t (resolvePath src) with
              | error e => exact hinvt
              | ok contents =>
                simp only []
                refine TableInv_bindE _ _ (ihL _ _ contents _ hinvt) (fun a _ => ?_)
                exact deleteFile_inv (resolvePath src) _ (ihL _ _ contents _ hinvt)

theorem initFileSystem_inv (s : FS) (h : FSInv s) : FSInv (initFileSystem s) := by
  rw [initFileSystem]
  cases hfind : findEntry s.table ['/'] with
  | some e => exact h
  | none =>
    have hnone : getEntry s.table ['/'] = none := hfind
    refine ⟨namesNodup_append s.table rootEntry h.1 hnone, ?_⟩
    intro en hen
    rw [getEntry_append, hnone] at hen
    rw [if_pos (by rfl)] at hen
    cases hen
    rfl

/-- Every state reachable by the public operations satisfies the table
invariant: unique keys, and any entry stored at the root key is a
directory. -/
theorem reachable_inv (s : FS) (h : Reachable s) : FSInv s := by
  induction h with
  | base n => exact ⟨List.nodup_nil, fun en hen => by cases hen⟩
  | init _ ih => exact initFileSystem_inv _ ih
  | createFileStep fuel p size _ ih => exact createFile_inv fuel p size _ ih
  | createDirectoryStep fuel p _ ih => exact (createDirectory_family_inv fuel).2.2 p _ ih
  | deleteFileStep p _ ih => exact deleteFile_inv p _ ih
  | deleteDirectoryStep fuel p recursive _ ih =>
    exact (deleteDirectory_family_inv fuel).2 p recursive _ ih
  | writeFileStep p data append _ ih => exact writeFile_inv p data append _ ih
  | moveFileStep fuel src dst _ ih => exact moveFile_inv fuel src dst _ ih
  | moveDirectoryStep fuel src dst _ ih => exact (moveDirectory_family_inv fuel).2 src dst _ ih

/-! ## Round-trip lemmas -/

theorem loadEntries_spec (L : List FileEntry) :
    ∀ s : FS, (((s.table ++ L).map FileEntry.name).Nodup) →
    loadEntries L s = ({ s with table := s.table ++ L }, Except.ok ()) := by
  induction L with
  | nil =>
    intro s _
    rw [loadEntries, List.append_nil]
  | cons e rest ih =>
    intro s h
    have hmid : ((e.name :: (s.table ++ rest).map FileEntry.name)).Nodup := by
      have := h
      rw [List.map_append, List.map_cons] at this
      rw [List.map_append]
      exact List.nodup_middle.mp this
    have hnone : getEntry s.table e.name = none := by
      refine getEntry_eq_none_of_names s.table e.name ?_
      intro x hx hcontra
      refine (List.nodup_cons.mp hmid).1 ?_
      rw [← hcontra, List.map_append]
      exact List.mem_append_left _ (List.mem_map_of_mem _ hx)
    have hadd : addEntry s.table e = Except.ok (s.table ++ [e]) := by
      rw [addEntry, hnone]
      rfl
    rw [loadEntries, hadd]
    simp only []
    have hre : ((({ s with table := s.table ++ [e] } : FS).table ++ rest).map
        FileEntry.name).Nodup := by
      show (((s.table ++ [e]) ++ rest).map FileEntry.name).Nodup
      rw [← List.append_cons]
      exact h
    rw [ih { s with table := s.table ++ [e] } hre]
    rw [show ({ s with table := s.table ++ [e] } : FS).table = s.table ++ [e] from rfl]
    rw [← List.append_cons]

theorem getD_map_range {α : Type} (f : Nat → α) (n i : Nat) (d : α) :
    ((List.range n).map f).getD i d = if i < n then f i else d := by
  by_cases h : i < n
  · rw [if_pos h, List.getD_eq_getElem?_getD, List.getElem?_map, List.getElem?_range h]
    rfl
  · rw [if_neg h]
    refine List.getD_eq_default _ _ ?_
    simp only [List.length_map, List.length_range]
    omega

theorem diskLoadBlocks_spec (B : List (Nat × Data)) :
    ∀ s : FS,
    (∀ pr ∈ B, pr.1 < s.numBlocks ∧ pr.2.length ≤ BLOCK_SIZE) →
    ((B.map Prod.fst).Nodup) →
    (diskLoadBlocks B s).2 = Except.ok () ∧
    (diskLoadBlocks B s).1.numBlocks = s.numBlocks ∧
    (diskLoadBlocks B s).1.table = s.table ∧
    (∀ i, (diskLoadBlocks B s).1.bitmap i
        = if i ∈ B.map Prod.fst then false else s.bitmap i) ∧
    (∀ i, i ∉ B.map Prod.fst → (diskLoadBlocks B s).1.disk i = s.disk i) ∧
    (∀ pr ∈ B, (diskLoadBlocks B s).1.disk pr.1 = fun o => pr.2.getD o 0) := by
  induction B with
  | nil =>
    intro s _ _
    exact ⟨rfl, rfl, rfl, fun i => by simp [diskLoadBlocks], fun i _ => rfl, fun pr hpr => by simp at hpr⟩
  | cons pr rest ih =>
    intro s hbound hnd
    obtain ⟨i, d⟩ := pr
    have hi : i < s.numBlocks := (hbound (i, d) (List.mem_cons_self _ _)).1
    have hd : d.length ≤ BLOCK_SIZE := (hbound (i, d) (List.mem_cons_self _ _)).2
    have hwb : writeBlock i d s =
        (setOccupiedFS (storeBlockFS s i d) i, Except.ok ()) := by
      rw [writeBlock, if_neg (Nat.not_lt.mpr hd), if_neg (Nat.not_le.mpr hi)]
    have hstep : diskLoadBlocks ((i, d) :: rest) s =
        diskLoadBlocks rest (setOccupiedFS (storeBlockFS s i d) i) := by
      rw [diskLoadBlocks, if_neg (Nat.not_le.mpr hi), if_neg (Nat.not_lt.mpr hd), hwb,
        bindE_ok]
    have hns : (setOccupiedFS (storeBlockFS s i d) i).numBlocks = s.numBlocks := rfl
    rw [List.map_cons, List.nodup_cons] at hnd
    obtain ⟨hif, hndr⟩ := hnd
    obtain ⟨rok, rnb, rtb, rbm, rdk, rdm⟩ := ih (setOccupiedFS (storeBlockFS s i d) i)
      (fun q hq => by rw [hns]; exact hbound q (List.mem_cons_of_mem _ hq)) hndr
    rw [hstep]
    refine ⟨rok, by rw [rnb, hns], rtb, ?_, ?_, ?_⟩
    · intro j
      rw [rbm j]
      by_cases hji : j = i
      · subst hji
        have hset : (setOccupiedFS (storeBlockFS s j d) j).bitmap j = false := by
          simp [setOccupiedFS]
        rw [if_neg hif, hset, List.map_cons, if_pos (List.mem_cons_self _ _)]
      · by_cases hjr : j ∈ rest.map Prod.fst
        · rw [if_pos hjr, List.map_cons, if_pos (List.mem_cons_of_mem _ hjr)]
        · rw [if_neg hjr, List.map_cons,
            if_neg (by rw [List.mem_cons]; push_neg; exact ⟨hji, hjr⟩)]
          simp [setOccupiedFS, storeBlockFS, hji]
    · intro j hj
      rw [List.map_cons, List.mem_cons] at hj
      push_neg at hj
      rw [rdk j hj.2]
      simp only [setOccupiedFS, storeBlockFS]
      simp [hj.1]
    · intro q hq
      rcases List.mem_cons.mp hq with h | h
      · subst h
        rw [rdk i hif]
        simp [setOccupiedFS, storeBlockFS]
      · exact rdm q h

theorem blockBytes_length (s : FS) (i : Nat) : (blockBytes s i).length = BLOCK_SIZE := by
  simp [blockBytes]

theorem map_fst_diskSave_blocks (s : FS) :
    ((diskSave s).blocks.map Prod.fst) = (List.range s.numBlocks).filter (fun i => !s.bitmap i) := by
  rw [diskSave]
  simp only [List.map_map]
  rw [show (Prod.fst ∘ fun i => (i, rstrip (blockBytes s i))) = fun i => i from rfl]
  rw [show ((List.range s.numBlocks).filter (fun i => !s.bitmap i)).map (fun i => i)
    = (List.range s.numBlocks).filter (fun i => !s.bitmap i) from List.map_id _]

theorem mem_occList {s : FS} {i : Nat}
    (h : i ∈ (List.range s.numBlocks).filter (fun j => !s.bitmap j)) :
    i < s.numBlocks ∧ s.bitmap i = false := by
  rw [List.mem_filter, List.mem_range] at h
  exact ⟨h.1, by simpa using h.2⟩

theorem occList_mem {s : FS} {i : Nat} (h1 : i < s.numBlocks) (h2 : s.bitmap i = false) :
    i ∈ (List.range s.numBlocks).filter (fun j => !s.bitmap j) := by
  rw [List.mem_filter, List.mem_range]
  exact ⟨h1, by simp [h2]⟩

set_option maxHeartbeats 2000000 in
/-- Characterization of the loaded state: same capacity, the original
table possibly extended by a synthesized root, the same free/occupied
accounting, and block reads that agree everywhere. -/
theorem loadAfterSave_spec (s : FS) (hinv : FSInv s) :
    (loadAfterSave s).numBlocks = s.numBlocks ∧
    ((loadAfterSave s).table = s.table ∨
      (getEntry s.table ['/'] = none ∧ (loadAfterSave s).table = s.table ++ [rootEntry])) ∧
    (∀ i, i < s.numBlocks → (loadAfterSave s).bitmap i = s.bitmap i) ∧
    (∀ i, readBlock (loadAfterSave s) i = readBlock s i) := by
  have hLE : loadEntries s.table (FS.new s.numBlocks)
      = ({ FS.new s.numBlocks with table := s.table }, Except.ok ()) := by
    have hpre : (((FS.new s.numBlocks).table ++ s.table).map FileEntry.name).Nodup := by
      show ((([] : List FileEntry) ++ s.table).map FileEntry.name).Nodup
      rw [List.nil_append]
      exact hinv.1
    have := loadEntries_spec s.table (FS.new s.numBlocks) hpre
    rw [this]
    rfl
  have hload : loadAfterSave s
      = (diskLoad (diskSave s) (rootRepair { FS.new s.numBlocks with table := s.table })).1 := by
    rw [loadAfterSave, fmLoad]
    rw [show (fmSave s).entries = s.table from rfl]
    rw [hLE, bindE_ok]
    rfl
  have hTmid : ∃ T' : List FileEntry,
      rootRepair { FS.new s.numBlocks with table := s.table }
        = { FS.new s.numBlocks with table := T' } ∧
      (T' = s.table ∨ (getEntry s.table ['/'] = none ∧ T' = s.table ++ [rootEntry])) := by
    cases hroot : getEntry s.table ['/'] with
    | some r =>
      have hdir := hinv.2 r hroot
      refine ⟨s.table, ?_, Or.inl rfl⟩
      rw [rootRepair]
      have hsc : getEntry ({ FS.new s.numBlocks with table := s.table } : FS).table ['/']
          = some r := hroot
      rw [hsc]
      simp only []
      rw [if_pos hdir]
    | none =>
      refine ⟨s.table ++ [rootEntry], ?_, Or.inr ⟨rfl, rfl⟩⟩
      rw [rootRepair]
      have hsc : getEntry ({ FS.new s.numBlocks with table := s.table } : FS).table ['/']
          = none := hroot
      rw [hsc]
  obtain ⟨T', hrr, hTalt⟩ := hTmid
  rw [hrr] at hload
  have hbounds : ∀ pr ∈ (diskSave s).blocks,
      pr.1 < ({ FS.new s.numBlocks with table := T' } : FS).numBlocks ∧
        pr.2.length ≤ BLOCK_SIZE := by
    intro pr hpr
    rw [diskSave] at hpr
    simp only [] at hpr
    obtain ⟨i, hi, rfl⟩ := List.mem_map.mp hpr
    obtain ⟨h1, _⟩ := mem_occList hi
    refine ⟨h1, ?_⟩
    calc (rstrip (blockBytes s i)).length ≤ (blockBytes s i).length := rstrip_length_le _
      _ = BLOCK_SIZE := blockBytes_length s i
  have hnd : ((diskSave s).blocks.map Prod.fst).Nodup := by
    rw [map_fst_diskSave_blocks]
    exact (List.nodup_range _).filter _
  have hDL := diskLoadBlocks_spec (diskSave s).blocks
    { ({ FS.new s.numBlocks with table := T' } : FS) with
        bitmap := fun i => (diskSave s).bits.getD i true }
    (by
      intro pr hpr
      exact hbounds pr hpr) hnd
  rw [show diskLoad (diskSave s) ({ FS.new s.numBlocks with table := T' } : FS)
      = diskLoadBlocks (diskSave s).blocks
        { ({ FS.new s.numBlocks with table := T' } : FS) with
          bitmap := fun i => (diskSave s).bits.getD i true } from rfl] at hload
  obtain ⟨_, rnb, rtb, rbm, rdk, rdm⟩ := hDL
  rw [← hload] at rnb rtb rbm rdk rdm
  replace rnb : (loadAfterSave s).numBlocks = s.numBlocks := rnb.trans rfl
  replace rtb : (loadAfterSave s).table = T' := rtb.trans rfl
  replace rbm : ∀ i, (loadAfterSave s).bitmap i
      = if i ∈ (diskSave s).blocks.map Prod.fst then false
        else (diskSave s).bits.getD i true := fun i => (rbm i).trans rfl
  replace rdk : ∀ i, i ∉ (diskSave s).blocks.map Prod.fst →
      (loadAfterSave s).disk i = fun _ => 0 := fun i hni => (rdk i hni).trans rfl
  have hbitsFn : ∀ i, (diskSave s).bits.getD i true
      = if i < s.numBlocks then s.bitmap i else true := by
    intro i
    rw [show (diskSave s).bits = (List.range s.numBlocks).map s.bitmap from rfl]
    exact getD_map_range s.bitmap s.numBlocks i true
  have hbm : ∀ i, i < s.numBlocks → (loadAfterSave s).bitmap i = s.bitmap i := by
    intro i hi
    rw [rbm i, map_fst_diskSave_blocks]
    by_cases hocc : s.bitmap i = false
    · rw [if_pos (occList_mem hi hocc), hocc]
    · have : i ∉ (List.range s.numBlocks).filter (fun j => !s.bitmap j) := by
        intro hmem
        exact hocc (mem_occList hmem).2
      rw [if_neg this]
      rw [hbitsFn i, if_pos hi]
  refine ⟨rnb, ?_, hbm, ?_⟩
  · rw [rtb]
    exact hTalt
  · intro i
    by_cases hi : i < s.numBlocks
    · by_cases hocc : s.bitmap i = false
      · have hmem : (i, rstrip (blockBytes s i)) ∈ (diskSave s).blocks := by
          rw [diskSave]
          simp only []
          exact List.mem_map_of_mem _ (occList_mem hi hocc)
        have hdisk : (loadAfterSave s).disk i = fun o => (rstrip (blockBytes s i)).getD o 0 :=
          rdm (i, rstrip (blockBytes s i)) hmem
        have hc1 : ¬((loadAfterSave s).numBlocks ≤ i) := by rw [rnb]; omega
        have hc2 : ¬(s.numBlocks ≤ i) := by omega
        rw [readBlock, readBlock, if_neg hc1, if_neg hc2, hbm i hi, hocc]
        simp only [Bool.false_eq_true, if_false]
        have hbb : blockBytes (loadAfterSave s) i
            = rstrip (blockBytes s i)
              ++ List.replicate (BLOCK_SIZE - (rstrip (blockBytes s i)).length) 0 := by
          rw [blockBytes, hdisk]
          refine map_range_getD _ BLOCK_SIZE ?_
          calc (rstrip (blockBytes s i)).length ≤ (blockBytes s i).length :=
              rstrip_length_le _
            _ = BLOCK_SIZE := blockBytes_length s i
        rw [hbb, rstrip_append_replicate_zero, rstrip_idem]
      · have htrue : s.bitmap i = true := by
          cases hb : s.bitmap i
          · exact absurd hb hocc
          · rfl
        have hc1 : ¬((loadAfterSave s).numBlocks ≤ i) := by rw [rnb]; omega
        have hc2 : ¬(s.numBlocks ≤ i) := by omega
        rw [readBlock, readBlock, if_neg hc1, if_neg hc2, hbm i hi, htrue]
        simp
    · have hc1 : (loadAfterSave s).numBlocks ≤ i := by rw [rnb]; omega
      have hc2 : s.numBlocks ≤ i := by omega
      rw [readBlock, readBlock, if_pos hc1, if_pos hc2]

/-! ## C1: observational equivalence of the save/load round trip -/

theorem prefix_root (l : FPath) (h : l.isPrefixOf ['/'] = true) :
    l = [] ∨ l = ['/'] := by
  cases l with
  | nil => exact Or.inl rfl
  | cons c rest =>
    simp only [List.isPrefixOf, Bool.and_eq_true, beq_iff_eq] at h
    obtain ⟨hc, hrest⟩ := h
    cases rest with
    | nil => right; rw [hc]
    | cons d r => simp [List.isPrefixOf] at hrest

theorem listDirStep_root (bp p : FPath) (acc : List FPath) (hbp : bp ≠ []) :
    listDirStep bp p acc rootEntry = acc := by
  rw [listDirStep]
  by_cases hc : (bp.isPrefixOf rootEntry.name && rootEntry.name != p) = true
  · rw [if_pos hc]
    have hpre : bp.isPrefixOf ['/'] = true := by
      have hc2 := hc
      simp only [Bool.and_eq_true] at hc2
      exact hc2.1
    rcases prefix_root bp hpre with h | h
    · exact absurd h hbp
    · subst h
      simp [rootEntry]
  · rw [if_neg hc]

theorem foldl_listDirStep_append (bp p : FPath) (t : List FileEntry)
    (acc : List FPath) (hbp : bp ≠ []) :
    (t ++ [rootEntry]).foldl (listDirStep bp p) acc =
      t.foldl (listDirStep bp p) acc := by
  rw [List.foldl_append]
  simp only [List.foldl_cons, List.foldl_nil]
  rw [listDirStep_root bp p _ hbp]

theorem findEntry_append_root (t : List FileEntry) (p : FPath)
    (hsome : (findEntry t p).isSome) :
    findEntry (t ++ [rootEntry]) p = findEntry t p := by
  rw [findEntry, findEntry, getEntry_append]
  cases hge : getEntry t (resolvePath p) with
  | some x => rfl
  | none => rw [findEntry, hge] at hsome; simp at hsome

theorem listDirectory_append_root (t : List FileEntry) (p : FPath)
    (hsome : (findEntry t p).isSome) :
    listDirectory (t ++ [rootEntry]) p = listDirectory t p := by
  rw [listDirectory, listDirectory, findEntry_append_root t p hsome]
  cases hfind : findEntry t p with
  | none => rfl
  | some entry =>
    simp only []
    by_cases hdir : entry.type ≠ FileType.Directory
    · rw [if_pos hdir, if_pos hdir]
    · rw [if_neg hdir, if_neg hdir]
      have hbp : (if p.getLast? = some '/' then p else p ++ ['/']) ≠ [] := by
        by_cases hl : p.getLast? = some '/'
        · rw [if_pos hl]; intro hemp; rw [hemp] at hl; simp at hl
        · rw [if_neg hl]; simp
      rw [foldl_listDirStep_append _ _ _ _ hbp]

theorem readFileBlocks_congr (s₁ s₂ : FS)
    (h : ∀ i, readBlock s₁ i = readBlock s₂ i) :
    ∀ L, readFileBlocks s₁ L = readFileBlocks s₂ L
  | [] => rfl
  | i :: rest => by
    rw [readFileBlocks, readFileBlocks, h i,
      readFileBlocks_congr s₁ s₂ h rest]

/-- Observational equivalence from C1's round-trip contract: every path
existing in x reports the same metadata, directory listing and file
contents in y, and the free/occupied accounting agrees on x's blocks. -/
def ObsEquiv (x y : FS) : Prop :=
  (∀ p : FPath, (getMetadata x.table p).isSome →
    getMetadata y.table p = getMetadata x.table p ∧
    listDirectory y.table p = listDirectory x.table p ∧
    readFile y p = readFile x p) ∧
  y.numBlocks = x.numBlocks ∧
  (∀ i, i < x.numBlocks → y.bitmap i = x.bitmap i)

/-- C1: for every state reachable by the public operations, saving and
then loading into a fresh manager of the same capacity reconstructs a
state observationally equivalent to the original: listDirectory,
readFile and getMetadata return identical results for every path that
existed before, and the bitmap's free/occupied accounting is the same. -/
theorem c1_save_load_roundtrip (s : FS) (h : Reachable s) :
    ObsEquiv s (loadAfterSave s) := by
  have hinv := reachable_inv s h
  obtain ⟨hnb, htab, hbm, hrb⟩ := loadAfterSave_spec s hinv
  refine ⟨?_, hnb, hbm⟩
  intro p hp
  have hfe2 : findEntry (loadAfterSave s).table p = findEntry s.table p := by
    rcases htab with htab | ⟨hroot, htab⟩
    · rw [htab]
    · rw [htab]
      exact findEntry_append_root s.table p hp
  refine ⟨?_, ?_, ?_⟩
  · rw [getMetadata, getMetadata]
    exact hfe2
  · rcases htab with htab | ⟨hroot, htab⟩
    · rw [htab]
    · rw [htab]
      exact listDirectory_append_root s.table p hp
  · rw [readFile, readFile, hfe2]
    cases hfind : findEntry s.table p with
    | none => rfl
    | some entry =>
      simp only []
      rw [readFileBlocks_congr (loadAfterSave s) s hrb entry.blockIndices]

theorem c1_witness : ObsEquiv (FS.new 4) (loadAfterSave (FS.new 4)) :=
  c1_save_load_roundtrip (FS.new 4) (Reachable.base 4)
